import Mathlib

/-!
Verification development for the ModelSolver pipeline (src/model_solver.py).

The file embeds, as executable Lean definitions, the pieces of the program the
claims are about: the equation lexer / lag normalizer of `_analyze_eqn`, the
input normalization of `_initialize_model`, the `blocks` property display, the
Newton-Raphson block solver `_newton_raphson`, the period driver `solve_model`
(instrumented with an event trace recording block runs, diagnostics and
write-backs), and the strongly-connected-component block decomposition.

Numeric values are modelled as exact rationals.  The working dataset
(a pandas dataframe converted to a float64 numpy array plus the
column-name-to-index dictionary) is modelled as a total map from
(row index, lowercased column name) to a value, representing an input frame
that contains every referenced column.  Library calls are modelled by their
mathematical behaviour: `np.linalg.inv` by an executable Gauss-Jordan
elimination that fails exactly on the pivot-free case, and the maximum
bipartite matching of networkx by a matching value constrained by the
properties the program checks or relies on.
-/

namespace ModelSolver

/-- The lag sentinel `___LAG` stored as `self._lag_notation` in `__init__`. -/
def lagSentinel : List Char := ['_', '_', '_', 'L', 'A', 'G']

/-- The characters that close a pending token in `_analyze_eqn`
(the membership test `chr in ['=','+','-','*','/','(',')',' ']`). -/
def stopChars : List Char := ['=', '+', '-', '*', '/', '(', ')', ' ']

/-- The decimal digit character for `n % 10`. -/
def digitChar (n : Nat) : Char :=
  match n with
  | 0 => '0' | 1 => '1' | 2 => '2' | 3 => '3' | 4 => '4'
  | 5 => '5' | 6 => '6' | 7 => '7' | 8 => '8' | _ => '9'

/-- Numeric value of a decimal digit character. -/
def digitVal (c : Char) : Nat := c.toNat - 48

/-- Decimal digits of a natural number, most significant first, with explicit
fuel so that the definition is structural; models Python `str(k)` for
`k ≥ 0`. -/
def natToDigitsAux : Nat → Nat → List Char
  | 0, _ => []
  | fuel + 1, n =>
    if n < 10 then [digitChar n]
    else natToDigitsAux fuel (n / 10) ++ [digitChar (n % 10)]

/-- Decimal representation of a natural number; models Python `str(k)`. -/
def natToDigits (n : Nat) : List Char := natToDigitsAux (n + 1) n

/-- Decimal representation of an integer; models Python `str(k)`. -/
def intToDigits (k : Int) : List Char :=
  if k < 0 then '-' :: natToDigits (-k).toNat else natToDigits k.toNat

/-- Value of a most-significant-first digit list (left inverse used to prove
that `natToDigits` is injective). -/
def digitsVal (l : List Char) : Nat := l.foldl (fun a c => a * 10 + digitVal c) 0

/-- Python `int(s)` on strings such as `-1`: optional sign followed by a
nonempty run of digits; anything else raises, modelled as `none`. -/
def digitsToNat? (s : List Char) : Option Nat :=
  if s.isEmpty then none
  else if s.all (fun c => c.isDigit) then
    some (s.foldl (fun a c => a * 10 + digitVal c) 0)
  else none

def pyInt? (s : List Char) : Option Int :=
  match s with
  | '-' :: rest => (digitsToNat? rest).map (fun n => -(n : Int))
  | '+' :: rest => (digitsToNat? rest).map (fun n => (n : Int))
  | rest => (digitsToNat? rest).map (fun n => (n : Int))

/-- Python's `str.lower`, restricted to its ASCII behaviour. -/
def pyLower (s : String) : String := String.mk (s.data.map Char.toLower)

/-- Python's `str.strip()` with no argument: remove leading and trailing
whitespace. -/
def pyStrip (s : String) : String :=
  String.mk (((s.data.dropWhile (fun c => c.isWhitespace)).reverse.dropWhile
    (fun c => c.isWhitespace)).reverse)

/-- Insertion into a Python dict modelled as an association list with at most
one entry per key; `d[k] = v` overwrites the previous binding of `k`. -/
def dictInsert {β : Type} (m : List (String × β)) (k : String) (v : β) :
    List (String × β) :=
  m.filter (fun e => e.1 != k) ++ [(k, v)]

/-- Does `l` start with `pat`? -/
def startsWithL : List Char → List Char → Bool
  | [], _ => true
  | _ :: _, [] => false
  | p :: ps, c :: cs => p == c && startsWithL ps cs

/-- Does `pat` occur as a contiguous run inside `l`?  Models the Python
substring test `pat in l` used with the lag sentinel. -/
def isSubL (pat : List Char) : List Char → Bool
  | [] => pat.isEmpty
  | c :: rest => startsWithL pat (c :: rest) || isSubL pat rest

/-- Scanner state of `_analyze_eqn`: `parsed` collects the emitted tokens
(`parsed_eqn_with_lag_notation`), `vm` and `lm` are the dictionaries
`var_mapping` and `lag_mapping`, `num` / `vr` / `lg` are the pending
`num` / `var` / `lag` registers, the four flags mirror
`is_num` / `is_var` / `is_lag` / `is_sci`, and `mx` carries `self._max_lag`. -/
structure PState where
  parsed : List (List Char)
  vm : List (String × String)
  lm : List (String × String × Int)
  num : List Char
  vr : List Char
  lg : List Char
  is_num : Bool
  is_var : Bool
  is_lag : Bool
  is_sci : Bool
  mx : Int

/-- The `if is_var:` emission block of `_analyze_eqn`: computes the prefix
`pfx` from the pending lag text, appends the canonical name to the parsed
equation, records both directions in `var_mapping`, records
`(base, lag)` in `lag_mapping`, and updates `self._max_lag`.  A malformed lag
interior makes Python's `int` raise, modelled as `none`. -/
def emit_var (st : PState) : Option PState :=
  if st.lg.isEmpty then
    some { st with
      parsed := st.parsed ++ [st.vr],
      vm := dictInsert (dictInsert st.vm (String.mk st.vr) (String.mk st.vr))
        (String.mk st.vr) (String.mk st.vr),
      lm := dictInsert st.lm (String.mk st.vr) (String.mk st.vr, 0) }
  else
    match pyInt? ((st.lg.drop 1).dropLast) with
    | none => none
    | some z =>
      let k : Int := -z
      let canon : List Char := st.vr ++ lagSentinel ++ intToDigits k ++ ['_']
      let tok : List Char := st.vr ++ st.lg
      some { st with
        parsed := st.parsed ++ [canon],
        vm := dictInsert (dictInsert st.vm (String.mk tok) (String.mk canon))
          (String.mk canon) (String.mk tok),
        lm := dictInsert st.lm (String.mk canon) (String.mk st.vr, k),
        mx := max st.mx k }

/-- One step of the character scan of `_analyze_eqn`. -/
def stepChar (st : PState) (c : Char) : Option PState :=
  let isn : Bool := (c.isDigit && !st.is_var) || st.is_num
  let isv : Bool := (c.isAlpha && !isn) || st.is_var
  let isl : Bool := (isv && c == '(') || st.is_lag
  let iss : Bool := (isn && c == 'e') || st.is_sci
  let st1 : PState :=
    { st with is_num := isn, is_var := isv, is_lag := isl, is_sci := iss }
  if stopChars.contains c && !(isl || iss) then
    let st2 : PState :=
      if isn then { st1 with parsed := st1.parsed ++ [st1.num] } else st1
    match (if isv then emit_var st2 else some st2) with
    | none => none
    | some st3 =>
      let st4 : PState :=
        if c != ' ' then { st3 with parsed := st3.parsed ++ [[c]] } else st3
      some { st4 with
        num := [], vr := [], lg := [],
        is_num := false, is_var := false, is_lag := false }
  else
    let st2 : PState :=
      if iss && c.isDigit then { st1 with is_sci := false } else st1
    if st2.is_num then some { st2 with num := st2.num ++ [c] }
    else if st2.is_var && !st2.is_lag then some { st2 with vr := st2.vr ++ [c] }
    else if st2.is_var && st2.is_lag then
      some { st2 with
        lg := st2.lg ++ [c],
        is_lag := if c == ')' then false else st2.is_lag }
    else some st2

/-- Embeds `_analyze_eqn`: scans `eqn + ' '` and returns the rewritten equation, the
per-equation `var_mapping` and `lag_mapping`, and the updated `self._max_lag`
(threaded through `mx0` since the source mutates the instance attribute). -/
def analyze_eqn (mx0 : Int) (eqn : String) :
    Option (String × List (String × String) × List (String × String × Int) × Int) :=
  match List.foldlM stepChar
      (PState.mk [] [] [] [] [] [] false false false false mx0)
      (eqn.data ++ [' ']) with
  | none => none
  | some st => some (String.mk st.parsed.flatten, st.vm, st.lm, st.mx)

/-- One analyzed equation: the tuple `[eqn, eqn_with_lag_notation,
var_mapping, lag_mapping]` built in `_analyze_eqns`. -/
structure EqnAnalyzed where
  orig : String
  rewritten : String
  vm : List (String × String)
  lm : List (String × String × Int)
deriving DecidableEq

/-- Embeds `_analyze_eqns`: analyzes every equation, accumulating the merged
`var_mapping` and `lag_mapping` (later equations override, as with
`{**a, **b}`) and the running `self._max_lag`. -/
def analyze_eqns (eqns : List String) :
    Option (List EqnAnalyzed × List (String × String) ×
      List (String × String × Int) × Int) :=
  List.foldlM (fun acc eqn =>
    match analyze_eqn acc.2.2.2 eqn with
    | none => none
    | some (rw, vm, lm, mx) =>
      some (acc.1 ++ [EqnAnalyzed.mk eqn rw vm lm],
        vm.foldl (fun m e => dictInsert m e.1 e.2) acc.2.1,
        lm.foldl (fun m e => dictInsert m e.1 e.2) acc.2.2.1,
        mx))
    ([], [], [], 0) eqns

/-- Embeds `_initialize_model`: rejects blank equations and blank endogenous names,
lowercases every equation in place, and then runs the endogenous loop.  The
source's endogenous loop reads `for endo_var in endo_vars:` but assigns
`endo_vars[i] = endo_vars[i].lower()` with `i` still bound to the index of the
last equation from the previous loop, so only the entry at index
`len(eqns) - 1` is lowercased; if that index is out of range the assignment
raises IndexError, and if `eqns` is empty the name `i` is unbound, both
modelled as `none`. -/
def init_model (eqns endo_vars : List String) :
    Option (List String × List String) :=
  if eqns.any (fun e => pyStrip e == "") then none
  else
    let eqns2 := eqns.map pyLower
    if endo_vars.any (fun v => pyStrip v == "") then none
    else if endo_vars.isEmpty then some (eqns2, endo_vars)
    else
      match eqns.length with
      | 0 => none
      | n + 1 =>
        if n < endo_vars.length then
          some (eqns2, endo_vars.set n (pyLower (endo_vars.getD n "")))
        else none

/-- The display map of the `blocks` property (line
`tuple(self._var_mapping.get(x)[2] for x in exog_vars)`): each canonical
exogenous name is looked up in the merged `var_mapping` and the resulting
string is indexed at position 2.  A missing key (`get` returning `None`,
hence a TypeError on `[2]`) and an index out of range (IndexError) are both
modelled as `none`. -/
def blocks_exog_display (vm : List (String × String)) (exog : List String) :
    List (Option Char) :=
  exog.map (fun x => (List.lookup x vm).bind (fun s => s.data.get? 2))

/-- The per-block exogenous set of `_gen_simulation_code`: union over the
block members' matched equations of every `var_mapping` value whose key does
not contain the lag sentinel, minus the block's endogenous members.  The
Python `set` has no order; the model fixes one by deduplicating the collected
list. -/
def gen_block_exog_vars (eqnsA : List EqnAnalyzed) (mVar : String → Nat)
    (members : List String) : List String :=
  let all := (members.map (fun mem =>
    match eqnsA.get? (mVar mem) with
    | none => []
    | some ea =>
      (ea.vm.filter (fun e => !(isSubL lagSentinel e.1.data))).map
        (fun e => e.2))).flatten
  all.dedup.filter (fun v => !(members.contains v))

/-! ### Decimal digits: auxiliary lemmas -/

theorem digitVal_digitChar {n : Nat} (h : n < 10) :
    digitVal (digitChar n) = n := by
  interval_cases n <;> rfl

theorem isUpper_digitChar (n : Nat) : (digitChar n).isUpper = false := by
  unfold digitChar
  split <;> rfl

theorem digitsVal_append_singleton (l : List Char) (c : Char) :
    digitsVal (l ++ [c]) = digitsVal l * 10 + digitVal c := by
  simp [digitsVal, List.foldl_append]

theorem digitsVal_natToDigitsAux :
    ∀ fuel n, n < fuel → digitsVal (natToDigitsAux fuel n) = n := by
  intro fuel
  induction fuel with
  | zero => intro n hn; omega
  | succ fuel ih =>
    intro n hn
    by_cases h : n < 10
    · simp [natToDigitsAux, h, digitsVal, digitVal_digitChar h]
    · have h10 : 10 ≤ n := by omega
      have hdiv : n / 10 < fuel := by
        have h1 : n / 10 < n := Nat.div_lt_self (by omega) (by omega)
        omega
      rw [natToDigitsAux, if_neg h, digitsVal_append_singleton, ih _ hdiv,
        digitVal_digitChar (Nat.mod_lt _ (by omega))]
      omega

theorem digitsVal_natToDigits (n : Nat) : digitsVal (natToDigits n) = n :=
  digitsVal_natToDigitsAux (n + 1) n (Nat.lt_succ_self n)

theorem natToDigits_inj {m n : Nat} (h : natToDigits m = natToDigits n) :
    m = n := by
  have := digitsVal_natToDigits m
  rw [h, digitsVal_natToDigits] at this
  omega

theorem isUpper_of_mem_natToDigitsAux :
    ∀ fuel n c, c ∈ natToDigitsAux fuel n → c.isUpper = false := by
  intro fuel
  induction fuel with
  | zero => intro n c hc; simp [natToDigitsAux] at hc
  | succ fuel ih =>
    intro n c hc
    by_cases h : n < 10
    · rw [natToDigitsAux, if_pos h] at hc
      simp at hc
      rw [hc]; exact isUpper_digitChar n
    · rw [natToDigitsAux, if_neg h] at hc
      rcases List.mem_append.mp hc with h1 | h2
      · exact ih _ _ h1
      · simp at h2
        rw [h2]; exact isUpper_digitChar _

theorem isUpper_of_mem_natToDigits {n : Nat} {c : Char}
    (hc : c ∈ natToDigits n) : c.isUpper = false :=
  isUpper_of_mem_natToDigitsAux (n + 1) n c hc

/-! ### The canonical lag encoding and its injectivity -/

/-- The canonical name built by the emission step of `_analyze_eqn` for a
reference to base variable `v` at lag `k`: the bare name for a current-period
reference, otherwise `v` followed by the lag sentinel, the decimal of `k` and
a trailing underscore (the `pfx` expression at line 206). -/
def encodeL (v : List Char) (k : Nat) : List Char :=
  if k = 0 then v else v ++ lagSentinel ++ natToDigits k ++ ['_']

def encode (v : String) (k : Nat) : String := String.mk (encodeL v.data k)

/-- No character of the list is an ASCII uppercase letter.  Base variable
names in an analyzed model satisfy this because `_initialize_model` lowercases
every equation before `_analyze_eqn` scans it. -/
def NoUpperL (l : List Char) : Prop := ∀ c ∈ l, c.isUpper = false

def NoUpperS (s : String) : Prop := NoUpperL s.data

instance (l : List Char) : Decidable (NoUpperL l) :=
  List.decidableBAll _ l

instance (s : String) : Decidable (NoUpperS s) :=
  List.decidableBAll _ s.data

/-- Index of the first uppercase character. -/
def fui : List Char → Option Nat
  | [] => none
  | c :: l => if c.isUpper then some 0 else (fui l).map (· + 1)

theorem fui_append_of_noUpper (u w : List Char) (hu : NoUpperL u) :
    fui (u ++ w) = (fui w).map (· + u.length) := by
  induction u with
  | nil =>
    simp only [List.nil_append, List.length_nil]
    cases fui w <;> rfl
  | cons c u ih =>
    have hc : c.isUpper = false := hu c (List.mem_cons_self c u)
    have hu' : NoUpperL u := fun d hd => hu d (List.mem_cons_of_mem c hd)
    have step : ∀ l, fui (c :: l) = (fui l).map (· + 1) := by
      intro l; rw [fui, hc]; simp
    rw [List.cons_append, step, ih hu', List.length_cons]
    cases fui w with
    | none => rfl
    | some j =>
      simp only [Option.map_some', Option.some.injEq]
      omega

theorem fui_lagSentinel_append (w : List Char) :
    fui (lagSentinel ++ w) = some 3 := rfl

theorem mem_L_lagSentinel : 'L' ∈ lagSentinel := by decide

theorem mem_L_encodeL (v : List Char) (k : Nat) (hk : ¬k = 0) :
    'L' ∈ encodeL v k := by
  rw [encodeL, if_neg hk]
  exact List.mem_append.mpr (Or.inl (List.mem_append.mpr
    (Or.inl (List.mem_append.mpr (Or.inr mem_L_lagSentinel)))))

/-- The canonical lag encoding is injective on sentinel-free (here: uppercase
free) base names: two references producing the same canonical name have the
same base variable and the same lag. -/
theorem encodeL_inj {v1 v2 : List Char} {k1 k2 : Nat}
    (h1 : NoUpperL v1) (h2 : NoUpperL v2)
    (he : encodeL v1 k1 = encodeL v2 k2) : v1 = v2 ∧ k1 = k2 := by
  by_cases hk1 : k1 = 0 <;> by_cases hk2 : k2 = 0
  · rw [encodeL, if_pos hk1, encodeL, if_pos hk2] at he
    exact ⟨he, hk1.trans hk2.symm⟩
  · have hv1 : encodeL v1 k1 = v1 := by rw [encodeL, if_pos hk1]
    have hL : 'L' ∈ v1 := by
      rw [← hv1, he]
      exact mem_L_encodeL v2 k2 hk2
    have := h1 'L' hL
    simp [Char.isUpper] at this
  · have hv2 : encodeL v2 k2 = v2 := by rw [encodeL, if_pos hk2]
    have hL : 'L' ∈ v2 := by
      rw [← hv2, ← he]
      exact mem_L_encodeL v1 k1 hk1
    have := h2 'L' hL
    simp [Char.isUpper] at this
  · rw [encodeL, if_neg hk1, encodeL, if_neg hk2] at he
    have he' : v1 ++ (lagSentinel ++ (natToDigits k1 ++ ['_'])) =
        v2 ++ (lagSentinel ++ (natToDigits k2 ++ ['_'])) := by
      simpa [List.append_assoc] using he
    have hlen : v1.length = v2.length := by
      have hf1 := fui_append_of_noUpper v1 (lagSentinel ++ (natToDigits k1 ++ ['_'])) h1
      have hf2 := fui_append_of_noUpper v2 (lagSentinel ++ (natToDigits k2 ++ ['_'])) h2
      rw [fui_lagSentinel_append] at hf1 hf2
      rw [he', hf2] at hf1
      simp at hf1
      omega
    obtain ⟨hv, hrest⟩ := List.append_inj he' hlen
    have hd : natToDigits k1 ++ ['_'] = natToDigits k2 ++ ['_'] :=
      (List.append_inj hrest rfl).2
    have hdd : natToDigits k1 = natToDigits k2 :=
      (List.append_inj' hd rfl).1
    exact ⟨hv, natToDigits_inj hdd⟩

theorem encode_inj {v1 v2 : String} {k1 k2 : Nat}
    (h1 : NoUpperS v1) (h2 : NoUpperS v2)
    (he : encode v1 k1 = encode v2 k2) : v1 = v2 ∧ k1 = k2 := by
  have hdata : encodeL v1.data k1 = encodeL v2.data k2 :=
    congrArg String.data he
  obtain ⟨hv, hk⟩ := encodeL_inj h1 h2 hdata
  refine ⟨?_, hk⟩
  cases v1; cases v2
  exact congrArg String.mk hv

/-- A well-formed `lag_mapping` entry: the key is the canonical encoding of the
value's base name and (non-negative) lag, and the base name is uppercase free.
Every entry written by `_analyze_eqn` on a lowercased equation whose lag
references have the documented `(-k)` shape (k a positive integer) has this
form. -/
def WfEntry (e : String × String × Int) : Prop :=
  0 ≤ e.2.2 ∧ e.1 = encode e.2.1 e.2.2.toNat ∧ NoUpperS e.2.1

instance (e : String × String × Int) : Decidable (WfEntry e) := by
  unfold WfEntry
  infer_instance

/-- C9: the lag encoding round-trips.  In a lag mapping whose entries all have
the shape written by `_analyze_eqn` for documented `(-k)` lag references on a
lowercased equation, looking up the canonical name produced for a reference to
base variable `v` at lag `k` (the bare name for `k = 0`, otherwise `v` + the
sentinel + the decimal of `k` + `_`) returns exactly the pair `(v, k)`. -/
theorem c9_lag_roundtrip (m : List (String × String × Int)) (v : String)
    (k : Nat) (hwf : ∀ e ∈ m, WfEntry e) (hv : NoUpperS v)
    (hmem : (encode v k, (v, (k : Int))) ∈ m) :
    List.lookup (encode v k) m = some (v, (k : Int)) := by
  induction m with
  | nil => simp at hmem
  | cons e t ih =>
    obtain ⟨ek, evn, evl⟩ := e
    cases hbe : encode v k == ek with
    | true =>
      have hk1 : encode v k = ek := eq_of_beq hbe
      obtain ⟨hnn, hkey, hno⟩ := hwf (ek, evn, evl) (List.mem_cons_self _ t)
      have heq : encode evn evl.toNat = encode v k := by
        dsimp at hkey
        rw [← hkey, hk1]
      obtain ⟨hv1, hk2⟩ := encode_inj hno hv heq
      have hevl : evl = (k : Int) := by
        dsimp at hnn
        omega
      simp [List.lookup, hbe, hevl]
      exact hv1
    | false =>
      have hne : ek ≠ encode v k := by
        intro h
        rw [h] at hbe
        simp at hbe
      rcases List.mem_cons.mp hmem with hhd | htl
      · exact absurd (congrArg Prod.fst hhd).symm hne
      · have := ih (fun e he => hwf e (List.mem_cons_of_mem _ he)) htl
        simpa [List.lookup, hbe] using this

/-- C9 witness: the lag mapping of the analyzed model `y = y(-1) + x`, with
`c9_lm` its value as computed by the embedded `_analyze_eqn`; the round-trip
theorem applies to it at `v = "y"`, `k = 1`. -/
def c9_lm : List (String × String × Int) :=
  [("y", ("y", 0)), ("y___LAG1_", ("y", 1)), ("x", ("x", 0))]

theorem c9_witness :
    (analyze_eqn 0 "y = y(-1) + x").map (fun r => r.2.2.1) = some c9_lm ∧
    encode "y" 1 = "y___LAG1_" ∧
    List.lookup (encode "y" 1) c9_lm = some ("y", (1 : Int)) :=
  ⟨rfl, rfl, c9_lag_roundtrip c9_lm "y" 1 (by decide) (by decide) (by decide)⟩

/-! ### C5: `_initialize_model` and the endogenous-variable lowercasing bug -/

/-- C5: at construction the code is supposed to lowercase every endogenous
name, but the endogenous loop reuses the stale index `i` of the equation loop,
so with two equations only `endo_vars[1]` is lowercased: the stored tuple for
input `["X", "Y"]` is `("X", "y")`, not the claimed distinct lowercased
`("x", "y")` (and no deduplication is performed anywhere). -/
theorem c5_endo_vars_not_lowercased :
    init_model ["X+Y=A", "X-Y=B"] ["X", "Y"] =
      some (["x+y=a", "x-y=b"], ["X", "y"]) ∧
    (["X", "y"] : List String) ≠ ["x", "y"] :=
  ⟨rfl, by decide⟩

/-! ### C1: the `blocks` property and the lag-notation display bug -/

def c1_vm : List (String × String) :=
  [("y", "y"), ("y(-1)", "y___LAG1_"), ("y___LAG1_", "y(-1)"), ("x", "x")]

def c1_lm : List (String × String × Int) :=
  [("y", ("y", 0)), ("y___LAG1_", ("y", 1)), ("x", ("x", 0))]

def c1_eqnsA : List EqnAnalyzed :=
  [EqnAnalyzed.mk "y = y(-1) + x" "y=y___LAG1_+x" c1_vm c1_lm]

/-- C1: evaluation of the `blocks` display at the model `y = y(-1) + x` with
endogenous `y`.  The analyzed model maps the canonical name `y___LAG1_` back
to the full token `y(-1)` in `var_mapping`, and the block's exogenous set is
`{y___LAG1_, x}`; but the `blocks` property applies `[2]` to the restored
token, producing the single character `-` for `y___LAG1_` and an IndexError
(modelled `none`) for the one-character token `x`, instead of the full tokens
`y(-1)` and `x` required by the claim. -/
theorem c1_blocks_lag_display_bug :
    analyze_eqns ["y = y(-1) + x"] =
      some (c1_eqnsA, c1_vm, c1_lm, (1 : Int)) ∧
    gen_block_exog_vars c1_eqnsA (fun _ => 0) ["y"] = ["y___LAG1_", "x"] ∧
    blocks_exog_display c1_vm ["y___LAG1_", "x"] = [some '-', none] ∧
    List.lookup "y___LAG1_" c1_vm = some "y(-1)" ∧
    List.lookup "x" c1_vm = some "x" :=
  ⟨rfl, rfl, rfl, rfl, rfl⟩

/-! ### Vectors, matrices and the Newton-Raphson block solver

Block-local numeric data is modelled with exact rationals: vectors are
`List ℚ` and matrices are row lists.  `np.linalg.inv` is modelled by an
executable Gauss-Jordan elimination returning `none` exactly when no nonzero
pivot exists, which is the `LinAlgError` (singular matrix) case. -/

def pyAbs (q : ℚ) : ℚ := if q < 0 then -q else q

/-- Models `np.max(np.abs(v))` for the nonempty vectors the solver passes around. -/
def maxAbs : List ℚ → ℚ
  | [] => 0
  | q :: rest => max (pyAbs q) (maxAbs rest)

def dotL : List ℚ → List ℚ → ℚ
  | a :: as, b :: bs => a * b + dotL as bs
  | _, _ => 0

def matVecMul (m : List (List ℚ)) (v : List ℚ) : List ℚ :=
  m.map (fun r => dotL r v)

def vecSub (a b : List ℚ) : List ℚ :=
  (a.zip b).map (fun p => p.1 - p.2)

def identRow (n i : Nat) : List ℚ :=
  (List.range n).map (fun j => if j = i then 1 else 0)

def swapRows (m : List (List ℚ)) (a b : Nat) : List (List ℚ) :=
  (m.set a (m.getD b [])).set b (m.getD a [])

/-- Index (absolute, starting from `i`) of the first row whose entry in
column `col` is nonzero. -/
def findPivotRow (col : Nat) : Nat → List (List ℚ) → Option Nat
  | _, [] => none
  | i, r :: rest =>
    if r.getD col 0 = 0 then findPivotRow col (i + 1) rest else some i

/-- Subtract the multiple of the normalized pivot row from every row other
than row `col` that clears column `col`. -/
def elimOthers (col : Nat) (prow2 : List ℚ) : Nat → List (List ℚ) → List (List ℚ)
  | _, [] => []
  | r, row :: rest =>
    (if r = col then row
     else (row.zip prow2).map (fun ab => ab.1 - row.getD col 0 * ab.2)) ::
      elimOthers col prow2 (r + 1) rest

/-- One column step of Gauss-Jordan elimination on the augmented matrix:
find a row at or below `col` with a nonzero pivot (else singular), swap it
up, normalize it, and clear the column elsewhere. -/
def pivotElim (aug : List (List ℚ)) (col : Nat) : Option (List (List ℚ)) :=
  match findPivotRow col col (aug.drop col) with
  | none => none
  | some i =>
    let aug1 := swapRows aug col i
    let prow := aug1.getD col []
    let prow2 := prow.map (fun q => q / prow.getD col 0)
    some (elimOthers col prow2 0 (aug1.set col prow2))

def gaussSteps : List Nat → List (List ℚ) → Option (List (List ℚ))
  | [], a => some a
  | c :: cs, a =>
    match pivotElim a c with
    | none => none
    | some a2 => gaussSteps cs a2

def augment (n : Nat) : Nat → List (List ℚ) → List (List ℚ)
  | _, [] => []
  | i, row :: rest => (row ++ identRow n i) :: augment n (i + 1) rest

/-- Model of `np.linalg.inv`: Gauss-Jordan on `[m | I]`; `none` models the
`LinAlgError` raised on a singular matrix. -/
def gaussInv (m : List (List ℚ)) : Option (List (List ℚ)) :=
  (gaussSteps (List.range m.length) (augment m.length 0 m)).map
    (fun a => a.map (fun row => row.drop m.length))

/-- Result dictionary of `_newton_raphson`:
`{'x': x_i, 'fun': f_i, 'success': success, 'status': status}` with status
0 = converged, 1 = did-not-converge (iteration cap), 2 = singular Jacobian. -/
structure NRResult where
  x : List ℚ
  fn : List ℚ
  success : Bool
  status : Nat
deriving DecidableEq

/-- One pass of the `while np.max(np.abs(f_i)) > 0` loop body of
`_newton_raphson`: check the residual, check the iteration cap, invert the
Jacobian (LinAlgError gives status 2), compute `x_i_new = x_i - J⁻¹ f_i`, and
on `max|x_new - x| ≤ tol` break *before* the `x_i = x_i_new` assignment, so
the previous iterate is returned; otherwise continue via `cont x_new`. -/
def nrBody (tol : ℚ) (maxiter i : Nat) (x fx : List ℚ)
    (jx : List (List ℚ)) (cont : List ℚ → NRResult) : NRResult :=
  if 0 < maxAbs fx then
    if i = maxiter then NRResult.mk x fx false 1
    else
      match gaussInv jx with
      | none => NRResult.mk x fx false 2
      | some ji =>
        let xn := vecSub x (matVecMul ji fx)
        if maxAbs (vecSub xn x) ≤ tol then NRResult.mk x fx true 0
        else cont xn
  else NRResult.mk x fx true 0

/-- The iteration of `_newton_raphson`, with fuel making the recursion
structural; the entry point supplies `maxiter + 1` fuel, which is never
exhausted because the cap check `i == maxiter` fires first. -/
def nrLoop (f : List ℚ → List ℚ) (jac : List ℚ → List (List ℚ)) (tol : ℚ)
    (maxiter : Nat) : Nat → Nat → List ℚ → List ℚ → NRResult
  | 0, i, x, fx =>
    nrBody tol maxiter i x fx (jac x) (fun xn => NRResult.mk xn fx false 1)
  | fuel + 1, i, x, fx =>
    nrBody tol maxiter i x fx (jac x)
      (fun xn => nrLoop f jac tol maxiter fuel (i + 1) xn (f xn))

/-- Embeds `_newton_raphson` as called by `_solve_block`: `tol` and `jac` are always
passed, `maxiter` keeps its default of 10. -/
def newton_raphson (f : List ℚ → List ℚ) (jac : List ℚ → List (List ℚ))
    (init : List ℚ) (tol : ℚ) (maxiter : Nat) : NRResult :=
  nrLoop f jac tol maxiter (maxiter + 1) 0 init (f init)

/-- Helper: a loop iteration that fails all three exit tests steps to the next
iterate with the incremented counter. -/
theorem nrLoop_continue (f : List ℚ → List ℚ) (jac : List ℚ → List (List ℚ))
    (tol : ℚ) (maxiter fuel i : Nat) (x fx ji xn fxn : _)
    (hfx : 0 < maxAbs fx) (hi : ¬i = maxiter)
    (hji : gaussInv (jac x) = some ji)
    (hxn : vecSub x (matVecMul ji fx) = xn)
    (htol : ¬maxAbs (vecSub xn x) ≤ tol)
    (hfxn : f xn = fxn) :
    nrLoop f jac tol maxiter (fuel + 1) i x fx =
      nrLoop f jac tol maxiter fuel (i + 1) xn fxn := by
  subst hxn
  subst hfxn
  simp [nrLoop, nrBody, hfx, hi, hji, htol]

/-- Helper: the iteration cap fires as soon as `i = maxiter` (with the
residual still nonzero), returning the current iterate with status 1. -/
theorem nrLoop_cap (f : List ℚ → List ℚ) (jac : List ℚ → List (List ℚ))
    (tol : ℚ) (maxiter fuel : Nat) (x fx : List ℚ)
    (hfx : 0 < maxAbs fx) :
    nrLoop f jac tol maxiter fuel maxiter x fx = NRResult.mk x fx false 1 := by
  cases fuel <;> simp [nrLoop, nrBody, hfx]

/-- Helper: a zero residual ends the loop at once with status 0. -/
theorem nrLoop_done (f : List ℚ → List ℚ) (jac : List ℚ → List (List ℚ))
    (tol : ℚ) (maxiter fuel i : Nat) (x fx : List ℚ)
    (hfx : ¬0 < maxAbs fx) :
    nrLoop f jac tol maxiter fuel i x fx = NRResult.mk x fx true 0 := by
  cases fuel <;> simp [nrLoop, nrBody, hfx]

/-- C2 (amended): when an iteration of the Newton loop takes the tolerance
branch — residual still nonzero, cap not reached, Jacobian invertible, and
`max|x_new - x| ≤ tol` for `x_new = x - J⁻¹ f` — the solver terminates with
status converged and success True, but returns the *previous* iterate `x`
and its residual, not `x_new`: the `break` precedes the `x_i = x_i_new`
assignment. -/
theorem c2_converged_returns_previous_iterate
    (f : List ℚ → List ℚ) (jac : List ℚ → List (List ℚ)) (tol : ℚ)
    (maxiter fuel i : Nat) (x fx ji : _)
    (hfx : 0 < maxAbs fx) (hi : ¬i = maxiter)
    (hji : gaussInv (jac x) = some ji)
    (htol : maxAbs (vecSub (vecSub x (matVecMul ji fx)) x) ≤ tol) :
    nrLoop f jac tol maxiter fuel i x fx = NRResult.mk x fx true 0 := by
  cases fuel with
  | zero => simp [nrLoop, nrBody, hfx, hi, hji, htol]
  | succ n => simp [nrLoop, nrBody, hfx, hi, hji, htol]

theorem c2_witness :
    0 < maxAbs [-(1 / 2 : ℚ)] ∧
    gaussInv [[(1 : ℚ)]] = some [[1]] ∧
    vecSub [(0 : ℚ)] (matVecMul [[1]] [-(1 / 2)]) = [1 / 2] ∧
    maxAbs (vecSub (vecSub [(0 : ℚ)] (matVecMul [[1]] [-(1 / 2)])) [0]) ≤ 1 ∧
    nrLoop (fun v => [v.headI - 1 / 2]) (fun _ => [[1]]) 1 10 11 0
      [0] [-(1 / 2)] = NRResult.mk [0] [-(1 / 2)] true 0 :=
  ⟨by norm_num [maxAbs, pyAbs, max_def],
    by norm_num [gaussInv, augment, gaussSteps, pivotElim, findPivotRow,
      swapRows, identRow, elimOthers, List.range_succ, List.range_zero],
    by norm_num [vecSub, matVecMul, dotL],
    by norm_num [vecSub, matVecMul, dotL, maxAbs, pyAbs, max_def],
    c2_converged_returns_previous_iterate (fun v => [v.headI - 1 / 2])
      (fun _ => [[1]]) 1 10 11 0 [0] [-(1 / 2)] [[1]]
      (by norm_num [maxAbs, pyAbs, max_def]) (by norm_num)
      (by norm_num [gaussInv, augment, gaussSteps, pivotElim, findPivotRow,
        swapRows, identRow, elimOthers, List.range_succ, List.range_zero])
      (by norm_num [vecSub, matVecMul, dotL, maxAbs, pyAbs, max_def])⟩

/-- C2 counterexample: solving `y - 1/2 = 0` from `y = 0` with tolerance 1,
the accepted first Newton step is `x_new = 1/2` and satisfies
`max|x_new - x| ≤ tol`, yet the solver returns `x = 0` (with its residual)
and status converged: the claim that the returned vector equals `x_new` is
false on this run. -/
theorem c2_counterexample :
    newton_raphson (fun v => [v.headI - 1 / 2]) (fun _ => [[1]]) [0] 1 10 =
      NRResult.mk [0] [-(1 / 2)] true 0 ∧
    vecSub [(0 : ℚ)] (matVecMul [[1]] [-(1 / 2)]) = [1 / 2] ∧
    maxAbs (vecSub [(1 / 2 : ℚ)] [0]) ≤ 1 ∧
    ([(0 : ℚ)] : List ℚ) ≠ [1 / 2] := by
  refine ⟨?_, ?_, ?_, ?_⟩
  · norm_num [newton_raphson, nrLoop, nrBody, gaussInv, augment, gaussSteps,
      pivotElim, findPivotRow, swapRows, identRow, elimOthers, matVecMul,
      dotL, vecSub, maxAbs, pyAbs, max_def, List.range_succ, List.range_zero]
  · norm_num [vecSub, matVecMul, dotL]
  · norm_num [vecSub, maxAbs, pyAbs, max_def]
  · norm_num



/-! ### The period driver `solve_model`

The working dataset is a total map from (row index, lowercased column name)
to a rational; `var_col_index` plus the float64 numpy array of `solve_model`
are fused into this map, which models an input frame containing every
referenced column.  The driver is instrumented with an event trace: a `run`
event for every `_solve_block` call (with its status), a `diag` event for the
failure printout, and a `write` event for every write-back of block values
into the working dataset.  The trace records exactly the operations the
source performs, in source order. -/

/-- A compiled block of `self._simulation_code`:
`[obj_fun, jac, endo_vars, exog_vars, block_eqns_lags]`. -/
structure SimCode where
  obj : List ℚ → List ℚ → List ℚ
  jac : List ℚ → List ℚ → List (List ℚ)
  endo_vars : List String
  exog_vars : List String
  eqns : List String

/-- Observable events of a solve, in execution order. -/
inductive Ev where
  | run (p : Int) (i : Nat) (status : Nat)
  | diag (p : Int) (i : Nat)
  | write (p : Int) (names : List String) (vals : List ℚ)
deriving DecidableEq

def updateCell (d : Int → String → ℚ) (p : Int) (c : String) (q : ℚ) :
    Int → String → ℚ :=
  fun r c2 => if r = p ∧ c2 = c then q else d r c2

/-- Models `output_data_array[period, [var_col_index.get(x) for x in endo_vars]] =
solution['x']`: elementwise assignment of the block's solution vector into
row `p` at the block's endogenous columns. -/
def writeRow : (Int → String → ℚ) → Int → List String → List ℚ →
    Int → String → ℚ
  | d, _, [], _ => d
  | d, _, _ :: _, [] => d
  | d, p, n :: ns, q :: qs => writeRow (updateCell d p n q) p ns qs

/-- Embeds `_gen_endo_vals`: the block-endogenous seed read at the current period. -/
def gen_endo_vals (endo : List String) (d : Int → String → ℚ) (p : Int) :
    List ℚ :=
  endo.map (fun v => d p v)

/-- Embeds `_gen_exog_vals`: each canonical exogenous name is decoded through
`lag_mapping` into `(base, lag)` and the cell at row `period - lag`, column
`base` is fetched (`_fetch_cell`). -/
def gen_exog_vals (exog : List String) (lm : String → String × Int)
    (d : Int → String → ℚ) (p : Int) : List ℚ :=
  exog.map (fun v => d (p - (lm v).2) (lm v).1)

/-- Embeds `_solve_block`: assemble the exogenous tuple and the endogenous seed from
the working dataset and run `_newton_raphson` with the configured tolerance
and the default iteration cap of 10. -/
def solve_block (b : SimCode) (lm : String → String × Int) (tol : ℚ)
    (d : Int → String → ℚ) (p : Int) : NRResult :=
  let ex := gen_exog_vals b.exog_vars lm d p
  newton_raphson (fun x => b.obj x ex) (fun x => b.jac x ex)
    (gen_endo_vals b.endo_vars d p) tol 10

/-- The inner block loop of `solve_model` at one period: run each block; on
any nonzero status print the diagnostic; on status 2 return `None` at once
(nothing further runs, nothing is written); otherwise — status 0 *and*
status 1 alike — write the returned vector into the block's endogenous
columns at row `p` and continue. -/
def runBlocks (lm : String → String × Int) (tol : ℚ) (p : Int) :
    List SimCode → Nat → (Int → String → ℚ) →
    Option (Int → String → ℚ) × List Ev
  | [], _, d => (some d, [])
  | b :: rest, i, d =>
    let sol := solve_block b lm tol d p
    let evs0 := Ev.run p i sol.status ::
      (if sol.status ≠ 0 then [Ev.diag p i] else [])
    if sol.status = 2 then (none, evs0)
    else
      let d2 := writeRow d p b.endo_vars sol.x
      let res := runBlocks lm tol p rest (i + 1) d2
      (res.1, evs0 ++ Ev.write p b.endo_vars sol.x :: res.2)

/-- The outer period loop of `solve_model`. -/
def runPeriods (sim : List SimCode) (lm : String → String × Int) (tol : ℚ) :
    List Nat → (Int → String → ℚ) →
    Option (Int → String → ℚ) × List Ev
  | [], d => (some d, [])
  | p :: ps, d =>
    let r1 := runBlocks lm tol (p : Int) sim 0 d
    match r1.1 with
    | none => (none, r1.2)
    | some d2 =>
      let r2 := runPeriods sim lm tol ps d2
      (r2.1, r1.2 ++ r2.2)

/-- Models `list(range(self._max_lag, output_data_array.shape[0]))`: the period
indices the driver visits, in order. -/
def solvePeriods (max_lag nrows : Nat) : List Nat :=
  List.range' max_lag (nrows - max_lag)

/-- Embeds `solve_model`: iterate the periods over a float64 working copy of the
input; returns the solution dataset (`None` after a singular Jacobian) and
the event trace. -/
def solve_model (sim : List SimCode) (lm : String → String × Int) (tol : ℚ)
    (max_lag nrows : Nat) (d0 : Int → String → ℚ) :
    Option (Int → String → ℚ) × List Ev :=
  runPeriods sim lm tol (solvePeriods max_lag nrows) d0

/-! ### C4: a singular Jacobian stops the whole solve -/

/-- Helper: within one period's block loop, a `run` event with status 2 is
the second-to-last event of the trace: it is followed by its diagnostic and
nothing else (in particular no `write` for the failing block and no `run`
for any later block), and the loop's result is `None`. -/
theorem runBlocks_run2 (lm : String → String × Int) (tol : ℚ) (p : Int) :
    ∀ (bs : List SimCode) (i0 : Nat) (d : Int → String → ℚ)
      (k : Nat) (p' : Int) (i' : Nat),
    (runBlocks lm tol p bs i0 d).2.get? k = some (Ev.run p' i' 2) →
    (runBlocks lm tol p bs i0 d).1 = none ∧
    (runBlocks lm tol p bs i0 d).2.length = k + 2 ∧
    (runBlocks lm tol p bs i0 d).2.get? (k + 1) = some (Ev.diag p' i') := by
  intro bs
  induction bs with
  | nil =>
    intro i0 d k p' i' h
    simp [runBlocks] at h
  | cons b rest ih =>
    intro i0 d k p' i' h
    by_cases h2 : (solve_block b lm tol d p).status = 2
    · have hne0 : ¬(solve_block b lm tol d p).status = 0 := by simp [h2]
      rw [runBlocks] at h ⊢
      simp only [if_pos h2, if_pos hne0, ne_eq] at h ⊢
      match k, h with
      | 0, h =>
        simp only [List.get?_cons_zero, Option.some.injEq, Ev.run.injEq] at h
        obtain ⟨hp, hi, -⟩ := h
        subst hp; subst hi
        simp
      | 1, h => simp at h
      | n + 2, h => simp at h
    · rw [runBlocks] at h ⊢
      simp only [if_neg h2, ne_eq] at h ⊢
      by_cases h0 : (solve_block b lm tol d p).status = 0
      · simp only [h0, not_true_eq_false, ite_false, List.nil_append,
          List.cons_append, List.singleton_append] at h ⊢
        match k, h with
        | 0, h => simp [h0] at h
        | 1, h => simp at h
        | n + 2, h =>
          simp only [List.nil_append, List.get?_cons_succ] at h
          obtain ⟨hn, hlen, hdiag⟩ := ih (i0 + 1) _ n p' i' h
          refine ⟨hn, ?_, ?_⟩
          · simp only [List.nil_append, List.length_cons, hlen]
          · simpa [List.nil_append, List.get?_cons_succ] using hdiag
      · simp only [h0, not_false_eq_true, ite_true, List.cons_append,
          List.singleton_append] at h ⊢
        match k, h with
        | 0, h => simp [h2] at h
        | 1, h => simp at h
        | 2, h => simp at h
        | n + 3, h =>
          simp only [List.nil_append, List.get?_cons_succ] at h
          obtain ⟨hn, hlen, hdiag⟩ := ih (i0 + 1) _ n p' i' h
          refine ⟨hn, ?_, ?_⟩
          · simp only [List.nil_append, List.length_cons, hlen]
          · simpa [List.nil_append, List.get?_cons_succ] using hdiag

/-- Helper: lifting `runBlocks_run2` through the period loop. -/
theorem runPeriods_run2 (sim : List SimCode) (lm : String → String × Int)
    (tol : ℚ) :
    ∀ (ps : List Nat) (d : Int → String → ℚ) (k : Nat) (p' : Int) (i' : Nat),
    (runPeriods sim lm tol ps d).2.get? k = some (Ev.run p' i' 2) →
    (runPeriods sim lm tol ps d).1 = none ∧
    (runPeriods sim lm tol ps d).2.length = k + 2 ∧
    (runPeriods sim lm tol ps d).2.get? (k + 1) = some (Ev.diag p' i') := by
  intro ps
  induction ps with
  | nil =>
    intro d k p' i' h
    simp [runPeriods] at h
  | cons p ps ih =>
    intro d k p' i' h
    cases hr : (runBlocks lm tol (p : Int) sim 0 d).1 with
    | none =>
      have hh : (runBlocks lm tol (p : Int) sim 0 d).2.get? k =
          some (Ev.run p' i' 2) := by
        simpa [runPeriods, hr] using h
      have hb := runBlocks_run2 lm tol (p : Int) sim 0 d k p' i' hh
      refine ⟨?_, ?_, ?_⟩
      · simp [runPeriods, hr]
      · simpa [runPeriods, hr] using hb.2.1
      · simpa [runPeriods, hr] using hb.2.2
    | some d2 =>
      simp only [runPeriods, hr] at h ⊢
      by_cases hk : k < (runBlocks lm tol (p : Int) sim 0 d).2.length
      · rw [List.get?_append hk] at h
        have := (runBlocks_run2 lm tol (p : Int) sim 0 d k p' i' h).1
        rw [hr] at this
        exact absurd this (by simp)
      · push_neg at hk
        rw [List.get?_append_right hk] at h
        obtain ⟨hn, hlen, hdiag⟩ := ih d2 _ p' i' h
        refine ⟨hn, ?_, ?_⟩
        · rw [List.length_append, hlen]; omega
        · rw [List.get?_append_right (Nat.le_succ_of_le hk)]
          have harg : k + 1 - (runBlocks lm tol (p : Int) sim 0 d).2.length =
              (k - (runBlocks lm tol (p : Int) sim 0 d).2.length) + 1 := by
            omega
          rw [harg]
          exact hdiag

/-- C4: if any block solve reports a singular Jacobian (status 2) at any
period, the whole solve stops immediately after emitting the diagnostic:
the `run` event is followed only by its `diag` event — no `write` of the
failing block, no later block of that period, no later period — and the
solve returns `None`. -/
theorem c4_singular_stops_solve (sim : List SimCode)
    (lm : String → String × Int) (tol : ℚ) (ml nr : Nat)
    (d0 : Int → String → ℚ) (k : Nat) (p : Int) (i : Nat)
    (h : (solve_model sim lm tol ml nr d0).2.get? k = some (Ev.run p i 2)) :
    (solve_model sim lm tol ml nr d0).1 = none ∧
    (solve_model sim lm tol ml nr d0).2.length = k + 2 ∧
    (solve_model sim lm tol ml nr d0).2.get? (k + 1) = some (Ev.diag p i) := by
  rw [solve_model] at h ⊢
  exact runPeriods_run2 sim lm tol (solvePeriods ml nr) d0 k p i h

/-- C4 witness model: the single equation `y = y + 1` (residual `-1`,
Jacobian `0`), which is structurally fine but numerically singular. -/
def c4_blk : SimCode :=
  SimCode.mk (fun _ _ => [-1]) (fun _ _ => [[0]]) ["y"] [] ["y = y + 1"]

def c4_sim : List SimCode := [c4_blk]

def c4_lm : String → String × Int := fun v => (v, 0)

def c4_d0 : Int → String → ℚ := fun _ _ => 0

def c4_tol : ℚ := 1 / 10 ^ 7

theorem c4_witness :
    (solve_model c4_sim c4_lm c4_tol 0 1 c4_d0).2.get? 0 =
      some (Ev.run 0 0 2) ∧
    (solve_model c4_sim c4_lm c4_tol 0 1 c4_d0).1 = none ∧
    (solve_model c4_sim c4_lm c4_tol 0 1 c4_d0).2.length = 0 + 2 ∧
    (solve_model c4_sim c4_lm c4_tol 0 1 c4_d0).2.get? (0 + 1) =
      some (Ev.diag 0 0) := by
  have hsb : solve_block c4_blk c4_lm c4_tol c4_d0 0 =
      NRResult.mk [0] [-1] false 2 := by
    show newton_raphson (fun x => c4_blk.obj x []) (fun x => c4_blk.jac x [])
      [0] c4_tol 10 = NRResult.mk [0] [-1] false 2
    norm_num [c4_blk, newton_raphson, nrLoop, nrBody, maxAbs, pyAbs, max_def,
      gaussInv, augment, gaussSteps, pivotElim, findPivotRow,
      List.range_succ, List.range_zero]
  have h : (solve_model c4_sim c4_lm c4_tol 0 1 c4_d0).2.get? 0 =
      some (Ev.run 0 0 2) := by
    simp [solve_model, solvePeriods, List.range', runPeriods, runBlocks,
      c4_sim, hsb]
  exact ⟨h, c4_singular_stops_solve c4_sim c4_lm c4_tol 0 1 c4_d0 0 0 0 h⟩

/-! ### C3: write-back happens for non-singular statuses, converged or not -/

/-- C3 model: `y⁴ - 43 y² + 124 y = 124` from seed `y = 0`.  Newton cycles
0 → 1 → 2 → 0 → … (each residual nonzero, each step larger than the
tolerance), so the iteration cap of 10 fires with the iterate `y = 1`. -/
def c3_f : List ℚ → List ℚ :=
  fun v => [v.headI ^ 4 - 43 * v.headI ^ 2 + 124 * v.headI - 124]

def c3_jac : List ℚ → List (List ℚ) :=
  fun v => [[4 * v.headI ^ 3 - 86 * v.headI + 124]]

def c3_blk : SimCode :=
  SimCode.mk (fun v _ => c3_f v) (fun v _ => c3_jac v) ["y"] []
    ["y*y*y*y - 43*y*y + 124*y = 124"]

def c3_sim : List SimCode := [c3_blk]

def c3_lm : String → String × Int := fun v => (v, 0)

def c3_d0 : Int → String → ℚ := fun _ _ => 0

def c3_tol : ℚ := 1 / 10 ^ 7

theorem c3_nr_eval :
    nrLoop c3_f c3_jac c3_tol 10 11 0 [0] [-124] =
      NRResult.mk [1] [-42] false 1 := by
  have hA : ∀ fuel i, ¬i = 10 →
      nrLoop c3_f c3_jac c3_tol 10 (fuel + 1) i [0] [-124] =
        nrLoop c3_f c3_jac c3_tol 10 fuel (i + 1) [1] [-42] := by
    intro fuel i hi
    refine nrLoop_continue _ _ _ _ _ _ _ _ [[1 / 124]] _ _ ?_ hi ?_ ?_ ?_ ?_
    · norm_num [maxAbs, pyAbs, max_def]
    · norm_num [c3_jac, gaussInv, augment, gaussSteps, pivotElim,
        findPivotRow, swapRows, identRow, elimOthers, List.range_succ,
        List.range_zero]
    · norm_num [vecSub, matVecMul, dotL]
    · norm_num [vecSub, maxAbs, pyAbs, max_def, c3_tol]
    · norm_num [c3_f]
  have hB : ∀ fuel i, ¬i = 10 →
      nrLoop c3_f c3_jac c3_tol 10 (fuel + 1) i [1] [-42] =
        nrLoop c3_f c3_jac c3_tol 10 fuel (i + 1) [2] [-32] := by
    intro fuel i hi
    refine nrLoop_continue _ _ _ _ _ _ _ _ [[1 / 42]] _ _ ?_ hi ?_ ?_ ?_ ?_
    · norm_num [maxAbs, pyAbs, max_def]
    · norm_num [c3_jac, gaussInv, augment, gaussSteps, pivotElim,
        findPivotRow, swapRows, identRow, elimOthers, List.range_succ,
        List.range_zero]
    · norm_num [vecSub, matVecMul, dotL]
    · norm_num [vecSub, maxAbs, pyAbs, max_def, c3_tol]
    · norm_num [c3_f]
  have hC : ∀ fuel i, ¬i = 10 →
      nrLoop c3_f c3_jac c3_tol 10 (fuel + 1) i [2] [-32] =
        nrLoop c3_f c3_jac c3_tol 10 fuel (i + 1) [0] [-124] := by
    intro fuel i hi
    refine nrLoop_continue _ _ _ _ _ _ _ _ [[-(1 / 16)]] _ _ ?_ hi ?_ ?_ ?_ ?_
    · norm_num [maxAbs, pyAbs, max_def]
    · norm_num [c3_jac, gaussInv, augment, gaussSteps, pivotElim,
        findPivotRow, swapRows, identRow, elimOthers, List.range_succ,
        List.range_zero]
    · norm_num [vecSub, matVecMul, dotL]
    · norm_num [vecSub, maxAbs, pyAbs, max_def, c3_tol]
    · norm_num [c3_f]
  calc nrLoop c3_f c3_jac c3_tol 10 11 0 [0] [-124]
      = nrLoop c3_f c3_jac c3_tol 10 10 1 [1] [-42] := hA 10 0 (by omega)
    _ = nrLoop c3_f c3_jac c3_tol 10 9 2 [2] [-32] := hB 9 1 (by omega)
    _ = nrLoop c3_f c3_jac c3_tol 10 8 3 [0] [-124] := hC 8 2 (by omega)
    _ = nrLoop c3_f c3_jac c3_tol 10 7 4 [1] [-42] := hA 7 3 (by omega)
    _ = nrLoop c3_f c3_jac c3_tol 10 6 5 [2] [-32] := hB 6 4 (by omega)
    _ = nrLoop c3_f c3_jac c3_tol 10 5 6 [0] [-124] := hC 5 5 (by omega)
    _ = nrLoop c3_f c3_jac c3_tol 10 4 7 [1] [-42] := hA 4 6 (by omega)
    _ = nrLoop c3_f c3_jac c3_tol 10 3 8 [2] [-32] := hB 3 7 (by omega)
    _ = nrLoop c3_f c3_jac c3_tol 10 2 9 [0] [-124] := hC 2 8 (by omega)
    _ = nrLoop c3_f c3_jac c3_tol 10 1 10 [1] [-42] := hA 1 9 (by omega)
    _ = NRResult.mk [1] [-42] false 1 :=
        nrLoop_cap _ _ _ _ _ _ _ (by norm_num [maxAbs, pyAbs, max_def])

/-- Helper: full evaluation of the C3 model solve: the block reports
did-not-converge (status 1) and the driver still writes the iterate back. -/
theorem c3_solve_eval :
    (solve_model c3_sim c3_lm c3_tol 0 1 c3_d0).2 =
      [Ev.run 0 0 1, Ev.diag 0 0, Ev.write 0 ["y"] [1]] ∧
    (solve_model c3_sim c3_lm c3_tol 0 1 c3_d0).1 =
      some (writeRow c3_d0 0 ["y"] [1]) := by
  have hsb : solve_block c3_blk c3_lm c3_tol c3_d0 0 =
      NRResult.mk [1] [-42] false 1 := by
    show newton_raphson c3_f c3_jac [0] c3_tol 10 =
      NRResult.mk [1] [-42] false 1
    rw [newton_raphson, show c3_f [0] = [-124] from by norm_num [c3_f]]
    exact c3_nr_eval
  have hvars : c3_blk.endo_vars = ["y"] := rfl
  constructor <;>
    simp [solve_model, solvePeriods, List.range', runPeriods, runBlocks,
      c3_sim, hsb, hvars]

/-- C3 counterexample: in the C3 model the only block reports
did-not-converge at period 0, yet the returned solution holds the
non-converged iterate `y = 1` where the input dataset held `0`: the values
*are* written back on did-not-converge. -/
theorem c3_counterexample :
    (solve_model c3_sim c3_lm c3_tol 0 1 c3_d0).2.get? 0 =
      some (Ev.run 0 0 1) ∧
    ((solve_model c3_sim c3_lm c3_tol 0 1 c3_d0).1.map (fun d => d 0 "y")) =
      some 1 ∧
    c3_d0 0 "y" = 0 ∧ (1 : ℚ) ≠ 0 := by
  obtain ⟨htr, hres⟩ := c3_solve_eval
  refine ⟨by rw [htr]; rfl, ?_, by norm_num [c3_d0], by norm_num⟩
  rw [hres]
  simp [writeRow, updateCell]

/-- Helper: in one period's block loop, every `run` event whose status is not
singular-jacobian — converged (0) and did-not-converge (1) alike — is
followed by the `write` event of that block's endogenous values (directly for
status 0, after the diagnostic for any other status), and the block index of
the event locates the block in the list. -/
theorem runBlocks_write (lm : String → String × Int) (tol : ℚ) (p : Int) :
    ∀ (bs : List SimCode) (i0 : Nat) (d : Int → String → ℚ)
      (k : Nat) (p' : Int) (i' s : Nat),
    (runBlocks lm tol p bs i0 d).2.get? k = some (Ev.run p' i' s) → ¬s = 2 →
    i0 ≤ i' ∧
    (∃ b vals, bs.get? (i' - i0) = some b ∧
      (runBlocks lm tol p bs i0 d).2.get? (k + (if s = 0 then 1 else 2)) =
        some (Ev.write p' b.endo_vars vals)) ∧
    (¬s = 0 → (runBlocks lm tol p bs i0 d).2.get? (k + 1) =
      some (Ev.diag p' i')) := by
  intro bs
  induction bs with
  | nil =>
    intro i0 d k p' i' s h hs
    simp [runBlocks] at h
  | cons b rest ih =>
    intro i0 d k p' i' s h hs
    by_cases h2 : (solve_block b lm tol d p).status = 2
    · have hne0 : ¬(solve_block b lm tol d p).status = 0 := by simp [h2]
      rw [runBlocks] at h
      simp only [if_pos h2, if_pos hne0, ne_eq] at h
      match k, h with
      | 0, h =>
        simp only [List.get?_cons_zero, Option.some.injEq, Ev.run.injEq] at h
        exact absurd (h.2.2.symm.trans h2) hs
      | 1, h => simp at h
      | n + 2, h => simp at h
    · rw [runBlocks] at h ⊢
      simp only [if_neg h2, ne_eq] at h ⊢
      by_cases h0 : (solve_block b lm tol d p).status = 0
      · simp only [h0, not_true_eq_false, ite_false, List.nil_append,
          List.cons_append, List.singleton_append] at h ⊢
        match k, h with
        | 0, h =>
          simp only [List.get?_cons_zero, Option.some.injEq, Ev.run.injEq] at h
          obtain ⟨hp, hi, hss⟩ := h
          subst hp; subst hi; subst hss
          refine ⟨Nat.le_refl i0, ⟨b, (solve_block b lm tol d p).x, ?_, ?_⟩, ?_⟩
          · simp
          · simp
          · intro hc; exact absurd rfl hc
        | 1, h => simp at h
        | n + 2, h =>
          simp only [List.nil_append, List.get?_cons_succ] at h
          obtain ⟨hle, ⟨b2, vals, hb2, hw⟩, hd⟩ := ih (i0 + 1) _ n p' i' s h hs
          refine ⟨by omega, ⟨b2, vals, ?_, ?_⟩, ?_⟩
          · rw [show i' - i0 = (i' - (i0 + 1)) + 1 from by omega]
            simpa using hb2
          · have : n + 2 + (if s = 0 then 1 else 2) =
                (n + (if s = 0 then 1 else 2)) + 2 := by omega
            rw [this]
            simpa [List.nil_append, List.get?_cons_succ] using hw
          · intro hns
            simpa [List.nil_append, List.get?_cons_succ] using hd hns
      · simp only [h0, not_false_eq_true, ite_true, List.cons_append,
          List.singleton_append] at h ⊢
        match k, h with
        | 0, h =>
          simp only [List.get?_cons_zero, Option.some.injEq, Ev.run.injEq] at h
          obtain ⟨hp, hi, hss⟩ := h
          subst hp; subst hi; subst hss
          refine ⟨Nat.le_refl i0, ⟨b, (solve_block b lm tol d p).x, ?_, ?_⟩, ?_⟩
          · simp
          · simp [h0]
          · intro _; simp
        | 1, h => simp at h
        | 2, h => simp at h
        | n + 3, h =>
          simp only [List.nil_append, List.get?_cons_succ] at h
          obtain ⟨hle, ⟨b2, vals, hb2, hw⟩, hd⟩ := ih (i0 + 1) _ n p' i' s h hs
          refine ⟨by omega, ⟨b2, vals, ?_, ?_⟩, ?_⟩
          · rw [show i' - i0 = (i' - (i0 + 1)) + 1 from by omega]
            simpa using hb2
          · have : n + 3 + (if s = 0 then 1 else 2) =
                (n + (if s = 0 then 1 else 2)) + 3 := by omega
            rw [this]
            simpa [List.nil_append, List.get?_cons_succ] using hw
          · intro hns
            simpa [List.nil_append, List.get?_cons_succ] using hd hns

/-- Helper: lifting `runBlocks_write` through the period loop. -/
theorem runPeriods_write (sim : List SimCode) (lm : String → String × Int)
    (tol : ℚ) :
    ∀ (ps : List Nat) (d : Int → String → ℚ) (k : Nat) (p' : Int) (i' s : Nat),
    (runPeriods sim lm tol ps d).2.get? k = some (Ev.run p' i' s) → ¬s = 2 →
    (∃ b vals, sim.get? i' = some b ∧
      (runPeriods sim lm tol ps d).2.get? (k + (if s = 0 then 1 else 2)) =
        some (Ev.write p' b.endo_vars vals)) ∧
    (¬s = 0 → (runPeriods sim lm tol ps d).2.get? (k + 1) =
      some (Ev.diag p' i')) := by
  intro ps
  induction ps with
  | nil =>
    intro d k p' i' s h hs
    simp [runPeriods] at h
  | cons p ps ih =>
    intro d k p' i' s h hs
    cases hr : (runBlocks lm tol (p : Int) sim 0 d).1 with
    | none =>
      have hh : (runBlocks lm tol (p : Int) sim 0 d).2.get? k =
          some (Ev.run p' i' s) := by
        simpa [runPeriods, hr] using h
      obtain ⟨-, ⟨b, vals, hb, hw⟩, hd⟩ :=
        runBlocks_write lm tol (p : Int) sim 0 d k p' i' s hh hs
      rw [Nat.sub_zero] at hb
      refine ⟨⟨b, vals, hb, ?_⟩, ?_⟩
      · simpa [runPeriods, hr] using hw
      · intro hns
        simpa [runPeriods, hr] using hd hns
    | some d2 =>
      simp only [runPeriods, hr] at h ⊢
      by_cases hk : k < (runBlocks lm tol (p : Int) sim 0 d).2.length
      · rw [List.get?_append hk] at h
        obtain ⟨-, ⟨b, vals, hb, hw⟩, hd⟩ :=
          runBlocks_write lm tol (p : Int) sim 0 d k p' i' s h hs
        rw [Nat.sub_zero] at hb
        have hwlt : k + (if s = 0 then 1 else 2) <
            (runBlocks lm tol (p : Int) sim 0 d).2.length := by
          have := List.get?_eq_some.mp hw
          exact this.1
        refine ⟨⟨b, vals, hb, ?_⟩, ?_⟩
        · rw [List.get?_append hwlt]
          exact hw
        · intro hns
          have hdd := hd hns
          have hdlt : k + 1 < (runBlocks lm tol (p : Int) sim 0 d).2.length :=
            (List.get?_eq_some.mp hdd).1
          rw [List.get?_append hdlt]
          exact hdd
      · push_neg at hk
        rw [List.get?_append_right hk] at h
        obtain ⟨⟨b, vals, hb, hw⟩, hd⟩ := ih d2 _ p' i' s h hs
        refine ⟨⟨b, vals, hb, ?_⟩, ?_⟩
        · rw [List.get?_append_right (by omega)]
          have : k + (if s = 0 then 1 else 2) -
              (runBlocks lm tol (p : Int) sim 0 d).2.length =
              (k - (runBlocks lm tol (p : Int) sim 0 d).2.length) +
                (if s = 0 then 1 else 2) := by omega
          rw [this]
          exact hw
        · intro hns
          rw [List.get?_append_right (by omega)]
          have : k + 1 - (runBlocks lm tol (p : Int) sim 0 d).2.length =
              (k - (runBlocks lm tol (p : Int) sim 0 d).2.length) + 1 := by
            omega
          rw [this]
          exact hd hns

/-- C3 (amended): during a solve, a block's returned values are written back
into the working dataset at the period's row for *every* non-singular status:
both converged and did-not-converge.  On did-not-converge the diagnostic is
emitted and the solve continues with subsequent blocks — but the
non-converged values are written into the dataset all the same; only
singular-jacobian prevents the write. -/
theorem c3_writeback_all_nonsingular (sim : List SimCode)
    (lm : String → String × Int) (tol : ℚ) (ml nr : Nat)
    (d0 : Int → String → ℚ) (k : Nat) (p : Int) (i s : Nat)
    (h : (solve_model sim lm tol ml nr d0).2.get? k = some (Ev.run p i s))
    (hs : ¬s = 2) :
    (∃ b vals, sim.get? i = some b ∧
      (solve_model sim lm tol ml nr d0).2.get? (k + (if s = 0 then 1 else 2)) =
        some (Ev.write p b.endo_vars vals)) ∧
    (¬s = 0 → (solve_model sim lm tol ml nr d0).2.get? (k + 1) =
      some (Ev.diag p i)) := by
  rw [solve_model] at h ⊢
  exact runPeriods_write sim lm tol (solvePeriods ml nr) d0 k p i s h hs

theorem c3_witness :
    (solve_model c3_sim c3_lm c3_tol 0 1 c3_d0).2.get? 0 =
      some (Ev.run 0 0 1) ∧
    (∃ b vals, c3_sim.get? 0 = some b ∧
      (solve_model c3_sim c3_lm c3_tol 0 1 c3_d0).2.get? 2 =
        some (Ev.write 0 b.endo_vars vals)) ∧
    (solve_model c3_sim c3_lm c3_tol 0 1 c3_d0).2.get? 1 =
      some (Ev.diag 0 0) := by
  have h0 : (solve_model c3_sim c3_lm c3_tol 0 1 c3_d0).2.get? 0 =
      some (Ev.run 0 0 1) := by
    rw [c3_solve_eval.1]; rfl
  obtain ⟨⟨b, vals, hb, hw⟩, hd⟩ :=
    c3_writeback_all_nonsingular c3_sim c3_lm c3_tol 0 1 c3_d0 0 0 0 1 h0
      (by omega)
  refine ⟨h0, ⟨b, vals, hb, ?_⟩, ?_⟩
  · simpa using hw
  · simpa using hd (by omega)

/-! ### C10: the solve has no frame effect outside endogenous cells -/

theorem writeRow_outside :
    ∀ (names : List String) (vals : List ℚ) (d : Int → String → ℚ)
      (p r : Int) (c : String), (¬r = p ∨ c ∉ names) →
    writeRow d p names vals r c = d r c := by
  intro names
  induction names with
  | nil =>
    intro vals d p r c _
    cases vals <;> rfl
  | cons n ns ih =>
    intro vals d p r c hc
    cases vals with
    | nil => rfl
    | cons q qs =>
      rw [writeRow]
      have hc2 : ¬r = p ∨ c ∉ ns := by
        rcases hc with h | h
        · exact Or.inl h
        · exact Or.inr (fun hm => h (List.mem_cons_of_mem _ hm))
      rw [ih qs _ p r c hc2, updateCell]
      rcases hc with h | h
      · simp [h]
      · have hne : ¬c = n := fun he => h (he ▸ List.mem_cons_self n ns)
        simp [hne]

theorem runBlocks_frame (lm : String → String × Int) (tol : ℚ) (p : Int) :
    ∀ (bs : List SimCode) (i0 : Nat) (d D : Int → String → ℚ),
    (runBlocks lm tol p bs i0 d).1 = some D →
    ∀ (r : Int) (c : String), (¬r = p ∨ ∀ b ∈ bs, c ∉ b.endo_vars) →
    D r c = d r c := by
  intro bs
  induction bs with
  | nil =>
    intro i0 d D h r c _
    rw [runBlocks] at h
    cases h
    rfl
  | cons b rest ih =>
    intro i0 d D h r c hc
    rw [runBlocks] at h
    by_cases h2 : (solve_block b lm tol d p).status = 2
    · simp [h2] at h
    · simp only [if_neg h2] at h
      have hc2 : ¬r = p ∨ ∀ b2 ∈ rest, c ∉ b2.endo_vars := by
        rcases hc with h1 | h1
        · exact Or.inl h1
        · exact Or.inr (fun b2 hb2 => h1 b2 (List.mem_cons_of_mem _ hb2))
      have hstep := ih (i0 + 1) _ D h r c hc2
      rw [hstep]
      apply writeRow_outside
      rcases hc with h1 | h1
      · exact Or.inl h1
      · exact Or.inr (h1 b (List.mem_cons_self b rest))

theorem runPeriods_frame (sim : List SimCode) (lm : String → String × Int)
    (tol : ℚ) :
    ∀ (ps : List Nat) (d D : Int → String → ℚ),
    (runPeriods sim lm tol ps d).1 = some D →
    ∀ (r : Int) (c : String),
    ((∀ q ∈ ps, ¬r = (q : Int)) ∨ ∀ b ∈ sim, c ∉ b.endo_vars) →
    D r c = d r c := by
  intro ps
  induction ps with
  | nil =>
    intro d D h r c _
    rw [runPeriods] at h
    cases h
    rfl
  | cons p ps ih =>
    intro d D h r c hc
    cases hr : (runBlocks lm tol (p : Int) sim 0 d).1 with
    | none => simp [runPeriods, hr] at h
    | some d2 =>
      simp only [runPeriods, hr] at h
      have hc2 : (∀ q ∈ ps, ¬r = (q : Int)) ∨ ∀ b ∈ sim, c ∉ b.endo_vars := by
        rcases hc with h1 | h1
        · exact Or.inl (fun q hq => h1 q (List.mem_cons_of_mem _ hq))
        · exact Or.inr h1
      rw [ih d2 D h r c hc2]
      apply runBlocks_frame lm tol (p : Int) sim 0 d d2 hr r c
      rcases hc with h1 | h1
      · exact Or.inl (h1 p (List.mem_cons_self p ps))
      · exact Or.inr h1

theorem mem_range'_iff :
    ∀ (n s q : Nat), q ∈ List.range' s n ↔ s ≤ q ∧ q < s + n := by
  intro n
  induction n with
  | zero =>
    intro s q
    simp [List.range']
  | succ n ih =>
    intro s q
    rw [List.range']
    simp only [List.mem_cons, ih (s + 1)]
    omega

/-- C10: `solve_model` works on a copy — the caller's input is the unchanged
`d0` — and whenever a solution dataset is returned, every cell outside an
endogenous column, and every cell in a row below `max_lag` or beyond the last
row, holds exactly its input value: only endogenous columns at rows
`max_lag..last` can differ. -/
theorem c10_frame_effect (sim : List SimCode) (lm : String → String × Int)
    (tol : ℚ) (ml nr : Nat) (d0 D : Int → String → ℚ)
    (h : (solve_model sim lm tol ml nr d0).1 = some D) (r : Int) (c : String)
    (hrc : r < (ml : Int) ∨ (nr : Int) ≤ r ∨ ∀ b ∈ sim, c ∉ b.endo_vars) :
    D r c = d0 r c := by
  rw [solve_model] at h
  apply runPeriods_frame sim lm tol _ d0 D h r c
  rcases hrc with h1 | h1 | h1
  · refine Or.inl (fun q hq => ?_)
    have := (mem_range'_iff _ _ q).mp hq
    omega
  · refine Or.inl (fun q hq => ?_)
    have := (mem_range'_iff _ _ q).mp hq
    omega
  · exact Or.inr h1

/-- C10 witness model: one block solving `y = 2`, two rows, `max_lag = 1`,
input holding `y = 5` at row 0, `y = 7` at row 1, and a non-endogenous
column `z`. -/
def c10_f : List ℚ → List ℚ := fun v => [v.headI - 2]

def c10_jac : List ℚ → List (List ℚ) := fun _ => [[1]]

def c10_blk : SimCode :=
  SimCode.mk (fun v _ => c10_f v) (fun v _ => c10_jac v) ["y"] [] ["y = 2"]

def c10_sim : List SimCode := [c10_blk]

def c10_lm : String → String × Int := fun v => (v, 0)

def c10_d0 : Int → String → ℚ :=
  fun r c => if r = 0 ∧ c = "y" then 5 else if c = "z" then 9 else 7

def c10_tol : ℚ := 1 / 10 ^ 7

theorem c10_witness :
    (solve_model c10_sim c10_lm c10_tol 1 2 c10_d0).1 =
      some (writeRow c10_d0 1 ["y"] [2]) ∧
    writeRow c10_d0 1 ["y"] [2] 0 "y" = c10_d0 0 "y" ∧
    writeRow c10_d0 1 ["y"] [2] 5 "y" = c10_d0 5 "y" ∧
    writeRow c10_d0 1 ["y"] [2] 1 "z" = c10_d0 1 "z" ∧
    writeRow c10_d0 1 ["y"] [2] 1 "y" = 2 ∧ c10_d0 1 "y" = 7 := by
  have hsb : solve_block c10_blk c10_lm c10_tol c10_d0 1 =
      NRResult.mk [2] [0] true 0 := by
    show newton_raphson c10_f c10_jac [c10_d0 1 "y"] c10_tol 10 =
      NRResult.mk [2] [0] true 0
    rw [show [c10_d0 1 "y"] = ([7] : List ℚ) from by norm_num [c10_d0]; decide,
      newton_raphson, show c10_f [7] = [5] from by norm_num [c10_f]]
    have h1 : nrLoop c10_f c10_jac c10_tol 10 11 0 [7] [5] =
        nrLoop c10_f c10_jac c10_tol 10 10 1 [2] [0] := by
      refine nrLoop_continue _ _ _ _ _ _ _ _ [[1]] _ _ ?_ (by omega) ?_ ?_ ?_ ?_
      · norm_num [maxAbs, pyAbs, max_def]
      · norm_num [c10_jac, gaussInv, augment, gaussSteps, pivotElim,
          findPivotRow, swapRows, identRow, elimOthers, List.range_succ,
          List.range_zero]
      · norm_num [vecSub, matVecMul, dotL]
      · norm_num [vecSub, maxAbs, pyAbs, max_def, c10_tol]
      · norm_num [c10_f]
    rw [h1]
    exact nrLoop_done _ _ _ _ _ _ _ _ (by norm_num [maxAbs, pyAbs, max_def])
  have hvars : c10_blk.endo_vars = ["y"] := rfl
  have hEval : (solve_model c10_sim c10_lm c10_tol 1 2 c10_d0).1 =
      some (writeRow c10_d0 1 ["y"] [2]) := by
    simp [solve_model, solvePeriods, List.range', runPeriods, runBlocks,
      c10_sim, hsb, hvars]
  refine ⟨hEval, ?_, ?_, ?_, ?_, by norm_num [c10_d0]; decide⟩
  · exact c10_frame_effect c10_sim c10_lm c10_tol 1 2 c10_d0 _ hEval 0 "y"
      (Or.inl (by norm_num))
  · exact c10_frame_effect c10_sim c10_lm c10_tol 1 2 c10_d0 _ hEval 5 "y"
      (Or.inr (Or.inl (by norm_num)))
  · exact c10_frame_effect c10_sim c10_lm c10_tol 1 2 c10_d0 _ hEval 1 "z"
      (Or.inr (Or.inr (by
        intro b hb
        simp only [c10_sim, List.mem_singleton] at hb
        subst hb
        decide)))
  · simp [writeRow, updateCell]

/-! ### C8: ascending periods and lag-shifted exogenous reads -/

theorem pairwise_lt_range'' :
    ∀ (n s : Nat), List.Pairwise (· < ·) (List.range' s n) := by
  intro n
  induction n with
  | zero => intro s; simp [List.range']
  | succ n ih =>
    intro s
    rw [List.range']
    refine List.Pairwise.cons ?_ (ih (s + 1))
    intro q hq
    have := (mem_range'_iff _ _ q).mp hq
    omega

/-- C8: the period driver visits exactly the period indices
`max_lag ≤ p < nrows`, in strictly ascending order starting at `max_lag`
and ending at the last row; and the exogenous tuple is assembled by reading,
for each canonical exogenous name `v` with decoded pair
`lag_mapping[v] = (base, lag)` (lag 0 for unlagged names), the cell at row
`p - lag`, column `base`. -/
theorem c8_period_order_and_lag_reads (ml nr : Nat) (exog : List String)
    (lm : String → String × Int) (d : Int → String → ℚ) (p : Int) :
    (∀ q, q ∈ solvePeriods ml nr ↔ ml ≤ q ∧ q < nr) ∧
    List.Pairwise (· < ·) (solvePeriods ml nr) ∧
    (ml < nr → (solvePeriods ml nr).head? = some ml) ∧
    (ml < nr → (nr - 1) ∈ solvePeriods ml nr) ∧
    (∀ j v, exog.get? j = some v →
      (gen_exog_vals exog lm d p).get? j =
        some (d (p - (lm v).2) (lm v).1)) := by
  refine ⟨?_, ?_, ?_, ?_, ?_⟩
  · intro q
    rw [solvePeriods, mem_range'_iff]
    omega
  · exact pairwise_lt_range'' _ _
  · intro h
    rw [solvePeriods, show nr - ml = (nr - ml - 1) + 1 from by omega,
      List.range']
    rfl
  · intro h
    rw [solvePeriods, mem_range'_iff]
    omega
  · intro j v hj
    rw [gen_exog_vals, List.get?_map, hj]
    rfl

def c8_lm : String → String × Int :=
  fun v => if v = "x___LAG1_" then ("x", 1) else (v, 0)

def c8_d : Int → String → ℚ := fun r c => if r = 1 ∧ c = "x" then 42 else 0

theorem c8_witness :
    (1 : Nat) < 3 ∧
    (solvePeriods 1 3).head? = some 1 ∧
    2 ∈ solvePeriods 1 3 ∧
    (gen_exog_vals ["x___LAG1_"] c8_lm c8_d 2).get? 0 = some (c8_d 1 "x") := by
  have t := c8_period_order_and_lag_reads 1 3 ["x___LAG1_"] c8_lm c8_d 2
  refine ⟨by omega, t.2.2.1 (by omega), (t.1 2).mpr (by omega), ?_⟩
  have hr := t.2.2.2.2 0 "x___LAG1_" rfl
  norm_num [c8_lm] at hr
  exact hr

/-! ### C7: the blocks partition the endogenous set

`_gen_eqns_endo_vars_bigraph` builds the equation/endogenous bipartite graph,
`_gen_model_digraph` turns it and the maximum matching into a digraph over
the endogenous variables, and `nx.condensation` contracts its strongly
connected components; `_gen_simulation_code` then takes each condensation
node's member set as a block.  The matching returned by networkx is modelled
as a pair of functions (the two directions of the returned dictionary)
constrained by exactly what the source checks or relies on: every equation
index below the equation count is matched to an endogenous node and every
endogenous node is matched back (otherwise `_gen_simulation_code` raises
KeyError and no model is constructed).  The SCC computation is embedded
executably: reachability by saturation of a step operator, mutual
reachability classes, and representative-wise collection of the classes. -/

/-- Edges of the bipartite graph: equation index `i` is linked to every key
of its `var_mapping` that is an endogenous variable (current-period
references only, since lagged tokens are never endogenous names). -/
def bigraph_edges (eqnsA : List EqnAnalyzed) (endo : List String) :
    List (Nat × String) :=
  ((eqnsA.enum).map (fun ie =>
    ((ie.2.vm.map (fun e => e.1)).filter (fun k => endo.contains k)).map
      (fun v => (ie.1, v)))).flatten

/-- Embeds `_gen_model_digraph`: for every bipartite edge `(i, w)` with
`i ≠ match[w]`, add the directed edge `w → match[i]`. -/
def model_digraph_edges (bedges : List (Nat × String)) (mEq : Nat → String)
    (mVar : String → Nat) : List (String × String) :=
  (bedges.filter (fun e => decide (¬e.1 = mVar e.2))).map
    (fun e => (e.2, mEq e.1))

/-- One saturation step of forward reachability: add every edge target whose
source is already reached. -/
def reachStep (E : List (String × String)) (s : Finset String) :
    Finset String :=
  s ∪ ((E.filter (fun e => decide (e.1 ∈ s))).map (fun e => e.2)).toFinset

def reachIter (E : List (String × String)) : Nat → Finset String → Finset String
  | 0, s => s
  | n + 1, s => reachIter E n (reachStep E s)

/-- All vertices forward reachability from `v` can ever produce. -/
def reachUniv (E : List (String × String)) (v : String) : Finset String :=
  insert v (E.map (fun e => e.2)).toFinset

/-- The set of vertices reachable from `v` (saturation is reached after at
most `card (reachUniv E v)` steps). -/
def reachSet (E : List (String × String)) (v : String) : Finset String :=
  reachIter E (reachUniv E v).card {v}

theorem subset_reachStep (E : List (String × String)) (s : Finset String) :
    s ⊆ reachStep E s :=
  Finset.subset_union_left

theorem reachStep_mono (E : List (String × String)) {s t : Finset String}
    (h : s ⊆ t) : reachStep E s ⊆ reachStep E t := by
  apply Finset.union_subset (h.trans Finset.subset_union_left)
  intro x hx
  simp only [List.mem_toFinset, List.mem_map, List.mem_filter] at hx
  obtain ⟨e, ⟨he, hsrc⟩, rfl⟩ := hx
  apply Finset.mem_union_right
  simp only [List.mem_toFinset, List.mem_map, List.mem_filter]
  refine ⟨e, ⟨he, ?_⟩, rfl⟩
  simp only [decide_eq_true_eq] at hsrc ⊢
  exact h hsrc

theorem reachStep_subset (E : List (String × String)) {s U : Finset String}
    (htgt : ((E.map (fun e => e.2)).toFinset : Finset String) ⊆ U)
    (hs : s ⊆ U) : reachStep E s ⊆ U := by
  apply Finset.union_subset hs
  intro x hx
  apply htgt
  simp only [List.mem_toFinset, List.mem_map, List.mem_filter] at hx ⊢
  obtain ⟨e, ⟨he, -⟩, rfl⟩ := hx
  exact ⟨e, he, rfl⟩

theorem reachIter_mono (E : List (String × String)) :
    ∀ (n : Nat) {s t : Finset String}, s ⊆ t →
    reachIter E n s ⊆ reachIter E n t := by
  intro n
  induction n with
  | zero => intro s t h; exact h
  | succ n ih => intro s t h; exact ih (reachStep_mono E h)

theorem subset_reachIter (E : List (String × String)) :
    ∀ (n : Nat) (s : Finset String), s ⊆ reachIter E n s := by
  intro n
  induction n with
  | zero => intro s; exact Finset.Subset.refl s
  | succ n ih =>
    intro s
    exact (subset_reachStep E s).trans
      ((ih (reachStep E s)).trans (Finset.Subset.refl _))

theorem reachIter_of_fixed (E : List (String × String)) {s : Finset String}
    (h : reachStep E s = s) : ∀ n, reachIter E n s = s := by
  intro n
  induction n with
  | zero => rfl
  | succ n ih =>
    show reachIter E n (reachStep E s) = s
    rw [h, ih]

theorem reachIter_stab (E : List (String × String)) (U : Finset String)
    (htgt : ((E.map (fun e => e.2)).toFinset : Finset String) ⊆ U) :
    ∀ (n : Nat) (s : Finset String), s ⊆ U → U.card ≤ s.card + n →
    reachStep E (reachIter E n s) = reachIter E n s := by
  intro n
  induction n with
  | zero =>
    intro s hsU hcard
    have hs : s = U := Finset.eq_of_subset_of_card_le hsU (by omega)
    subst hs
    show reachStep E s = s
    exact Finset.Subset.antisymm (reachStep_subset E htgt (Finset.Subset.refl s))
      (subset_reachStep E s)
  | succ n ih =>
    intro s hsU hcard
    by_cases heq : reachStep E s = s
    · show reachStep E (reachIter E n (reachStep E s)) =
        reachIter E n (reachStep E s)
      rw [heq, reachIter_of_fixed E heq]
      exact heq
    · have hss : s ⊂ reachStep E s :=
        ⟨subset_reachStep E s,
          fun hsub => heq (Finset.Subset.antisymm hsub (subset_reachStep E s))⟩
      have hlt : s.card < (reachStep E s).card := Finset.card_lt_card hss
      exact ih (reachStep E s) (reachStep_subset E htgt hsU) (by omega)

theorem reachStep_reachSet (E : List (String × String)) (v : String) :
    reachStep E (reachSet E v) = reachSet E v := by
  apply reachIter_stab E (reachUniv E v)
  · exact Finset.subset_insert v _
  · exact Finset.singleton_subset_iff.mpr (Finset.mem_insert_self v _)
  · simp [Finset.card_singleton]

theorem mem_reachSet_self (E : List (String × String)) (v : String) :
    v ∈ reachSet E v :=
  subset_reachIter E _ {v} (Finset.mem_singleton_self v)

theorem reachIter_subset_closed (E : List (String × String))
    {R : Finset String} (hR : reachStep E R = R) :
    ∀ (n : Nat) {s : Finset String}, s ⊆ R → reachIter E n s ⊆ R := by
  intro n
  induction n with
  | zero => intro s h; exact h
  | succ n ih =>
    intro s h
    exact ih ((reachStep_mono E h).trans (le_of_eq hR))

theorem reachSet_trans (E : List (String × String)) {v w : String}
    (hw : w ∈ reachSet E v) : reachSet E w ⊆ reachSet E v := by
  apply reachIter_subset_closed E (reachStep_reachSet E v)
  exact Finset.singleton_subset_iff.mpr hw

theorem mem_reachSet_trans (E : List (String × String)) {a b c : String}
    (hab : a ∈ reachSet E b) (hbc : b ∈ reachSet E c) : a ∈ reachSet E c :=
  reachSet_trans E hbc hab

/-! #### Mutual-reachability classes and the block list -/

/-- The strongly connected component of `v` within the declared node set:
all nodes mutually reachable with `v`. -/
def sccOf (E : List (String × String)) (nodes : List String) (v : String) :
    Finset String :=
  nodes.toFinset.filter (fun w => w ∈ reachSet E v ∧ v ∈ reachSet E w)

/-- The union of an accumulated list of blocks. -/
def coveredBy (acc : List (Finset String)) : Finset String :=
  acc.foldr (· ∪ ·) ∅

/-- Collect the component of each not-yet-covered node, in node order; this
is the member-set family of the condensation nodes. -/
def sccBlocksAux (E : List (String × String)) (nodes : List String) :
    List String → List (Finset String) → List (Finset String)
  | [], acc => acc
  | v :: vs, acc =>
    if v ∈ coveredBy acc then sccBlocksAux E nodes vs acc
    else sccBlocksAux E nodes vs (acc ++ [sccOf E nodes v])

def sccBlocks (E : List (String × String)) (nodes : List String) :
    List (Finset String) :=
  sccBlocksAux E nodes nodes []

theorem mem_sccOf_self (E : List (String × String)) (nodes : List String)
    {v : String} (hv : v ∈ nodes) : v ∈ sccOf E nodes v := by
  rw [sccOf, Finset.mem_filter]
  exact ⟨List.mem_toFinset.mpr hv, mem_reachSet_self E v, mem_reachSet_self E v⟩

theorem sccOf_subset (E : List (String × String)) (nodes : List String)
    (v : String) : sccOf E nodes v ⊆ nodes.toFinset :=
  Finset.filter_subset _ _

/-- Two components overlapping on any node coincide on mutual reachability:
if `w` lies in the class of `u` and in the class of `v`, then `v` lies in the
class of `u` (provided `v` is a node). -/
theorem sccOf_overlap (E : List (String × String)) (nodes : List String)
    {u v w : String} (hv : v ∈ nodes)
    (hwu : w ∈ sccOf E nodes u) (hwv : w ∈ sccOf E nodes v) :
    v ∈ sccOf E nodes u := by
  rw [sccOf, Finset.mem_filter] at hwu hwv ⊢
  obtain ⟨-, hwu1, hwu2⟩ := hwu
  obtain ⟨-, hwv1, hwv2⟩ := hwv
  refine ⟨List.mem_toFinset.mpr hv, ?_, ?_⟩
  · exact mem_reachSet_trans E hwv2 hwu1
  · exact mem_reachSet_trans E hwu2 hwv1

theorem mem_coveredBy :
    ∀ (acc : List (Finset String)) (t : Finset String), t ∈ acc →
    ∀ {x : String}, x ∈ t → x ∈ coveredBy acc := by
  intro acc
  induction acc with
  | nil => intro t ht; simp at ht
  | cons a l ih =>
    intro t ht x hx
    rcases List.mem_cons.mp ht with rfl | ht
    · exact Finset.mem_union_left _ hx
    · exact Finset.mem_union_right _ (ih t ht hx)

theorem exists_of_mem_coveredBy :
    ∀ (acc : List (Finset String)) {x : String}, x ∈ coveredBy acc →
    ∃ t ∈ acc, x ∈ t := by
  intro acc
  induction acc with
  | nil => intro x hx; simp [coveredBy] at hx
  | cons a l ih =>
    intro x hx
    rcases Finset.mem_union.mp hx with h | h
    · exact ⟨a, List.mem_cons_self a l, h⟩
    · obtain ⟨t, ht, hxt⟩ := ih h
      exact ⟨t, List.mem_cons_of_mem a ht, hxt⟩

theorem coveredBy_append (a b : List (Finset String)) :
    coveredBy (a ++ b) = coveredBy a ∪ coveredBy b := by
  induction a with
  | nil => simp [coveredBy]
  | cons t a ih =>
    show t ∪ coveredBy (a ++ b) = (t ∪ coveredBy a) ∪ coveredBy b
    rw [ih, Finset.union_assoc]

theorem disjoint_coveredBy {t : Finset String} :
    ∀ (l : List (Finset String)), (∀ u ∈ l, Disjoint t u) →
    Disjoint t (coveredBy l) := by
  intro l
  induction l with
  | nil => intro _; simp [coveredBy]
  | cons a l ih =>
    intro h
    show Disjoint t (a ∪ coveredBy l)
    exact Finset.disjoint_union_right.mpr
      ⟨h a (List.mem_cons_self a l), ih (fun u hu => h u (List.mem_cons_of_mem a hu))⟩

theorem card_coveredBy :
    ∀ (l : List (Finset String)), List.Pairwise (fun a b => Disjoint a b) l →
    (coveredBy l).card = (l.map Finset.card).sum := by
  intro l
  induction l with
  | nil => intro _; simp [coveredBy]
  | cons a l ih =>
    intro hp
    show (a ∪ coveredBy l).card = _
    rw [Finset.card_union_of_disjoint
        (disjoint_coveredBy l (List.pairwise_cons.mp hp).1),
      ih (List.pairwise_cons.mp hp).2]
    simp

/-- The invariant carried by the block collector: every accumulated block is
the component of one of its members, and the blocks are pairwise disjoint. -/
def GoodAcc (E : List (String × String)) (nodes : List String)
    (acc : List (Finset String)) : Prop :=
  (∀ t ∈ acc, ∃ u ∈ nodes, t = sccOf E nodes u ∧ u ∈ t) ∧
  List.Pairwise (fun a b => Disjoint a b) acc

theorem goodAcc_append (E : List (String × String)) (nodes : List String)
    {acc : List (Finset String)} {v : String} (hv : v ∈ nodes)
    (hgood : GoodAcc E nodes acc) (hnc : v ∉ coveredBy acc) :
    GoodAcc E nodes (acc ++ [sccOf E nodes v]) := by
  obtain ⟨hrep, hdisj⟩ := hgood
  constructor
  · intro t ht
    rcases List.mem_append.mp ht with h | h
    · exact hrep t h
    · rw [List.mem_singleton.mp h]
      exact ⟨v, hv, rfl, mem_sccOf_self E nodes hv⟩
  · rw [List.pairwise_append]
    refine ⟨hdisj, List.pairwise_singleton _ _, ?_⟩
    intro a ha b hb
    rw [List.mem_singleton.mp hb]
    obtain ⟨u, hu, rfl, hmem⟩ := hrep a ha
    rw [Finset.disjoint_left]
    intro w hw hw2
    exact hnc (mem_coveredBy acc _ ha (sccOf_overlap E nodes hv hw hw2))

theorem sccBlocksAux_spec (E : List (String × String)) (nodes : List String) :
    ∀ (todo : List String) (acc : List (Finset String)),
    (∀ v ∈ todo, v ∈ nodes) → GoodAcc E nodes acc →
    GoodAcc E nodes (sccBlocksAux E nodes todo acc) ∧
    coveredBy acc ⊆ coveredBy (sccBlocksAux E nodes todo acc) ∧
    (∀ v ∈ todo, v ∈ coveredBy (sccBlocksAux E nodes todo acc)) := by
  intro todo
  induction todo with
  | nil =>
    intro acc _ hg
    exact ⟨hg, Finset.Subset.refl _, by simp⟩
  | cons v vs ih =>
    intro acc htodo hg
    by_cases hc : v ∈ coveredBy acc
    · rw [sccBlocksAux, if_pos hc]
      obtain ⟨hg2, hsub, hcov⟩ :=
        ih acc (fun w hw => htodo w (List.mem_cons_of_mem v hw)) hg
      refine ⟨hg2, hsub, ?_⟩
      intro w hw
      rcases List.mem_cons.mp hw with rfl | hw
      · exact hsub hc
      · exact hcov w hw
    · rw [sccBlocksAux, if_neg hc]
      have hv : v ∈ nodes := htodo v (List.mem_cons_self v vs)
      have hg2 := goodAcc_append E nodes hv hg hc
      obtain ⟨hg3, hsub, hcov⟩ :=
        ih (acc ++ [sccOf E nodes v])
          (fun w hw => htodo w (List.mem_cons_of_mem v hw)) hg2
      have hsub0 : coveredBy acc ⊆ coveredBy (acc ++ [sccOf E nodes v]) := by
        rw [coveredBy_append]
        exact Finset.subset_union_left
      refine ⟨hg3, hsub0.trans hsub, ?_⟩
      intro w hw
      rcases List.mem_cons.mp hw with rfl | hw
      · apply hsub
        apply mem_coveredBy _ (sccOf E nodes w)
          (List.mem_append.mpr (Or.inr (List.mem_singleton_self _)))
        exact mem_sccOf_self E nodes hv
      · exact hcov w hw

/-- The embedded condensation member-set family forms a partition of the
digraph's node set. -/
theorem sccBlocks_spec (E : List (String × String)) (nodes : List String) :
    coveredBy (sccBlocks E nodes) = nodes.toFinset ∧
    List.Pairwise (fun a b => Disjoint a b) (sccBlocks E nodes) ∧
    ((sccBlocks E nodes).map Finset.card).sum = nodes.toFinset.card := by
  obtain ⟨⟨hrep, hdisj⟩, -, hcov⟩ :=
    sccBlocksAux_spec E nodes nodes [] (fun v hv => hv)
      ⟨by simp, List.Pairwise.nil⟩
  have hcovered_eq : coveredBy (sccBlocks E nodes) = nodes.toFinset := by
    apply Finset.Subset.antisymm
    · intro x hx
      obtain ⟨t, ht, hxt⟩ := exists_of_mem_coveredBy _ hx
      obtain ⟨u, hu, rfl, -⟩ := hrep t ht
      exact sccOf_subset E nodes u hxt
    · intro x hx
      exact hcov x (List.mem_toFinset.mp hx)
  refine ⟨hcovered_eq, hdisj, ?_⟩
  rw [← hcovered_eq, sccBlocks, card_coveredBy _ hdisj]

/-- C7: for a successfully constructed model — the matching returned by the
bipartite matching covers every equation and every endogenous node, as the
source checks (`len(match)/2 == len(eqns)`) and relies on (no KeyError in
`_gen_simulation_code`) — the block-endogenous sets (the SCC member sets of
the model digraph) form a partition of the endogenous set: their union is the
endogenous set, they are pairwise disjoint, and the block sizes sum to the
number of equations, which equals the number of (distinct) endogenous
variables. -/
theorem c7_blocks_partition_endo (endo : List String) (neq : Nat)
    (bedges : List (Nat × String)) (mEq : Nat → String) (mVar : String → Nat)
    (hEq : ∀ i, i < neq → mEq i ∈ endo ∧ mVar (mEq i) = i)
    (hVar : ∀ v ∈ endo, mVar v < neq ∧ mEq (mVar v) = v) :
    coveredBy (sccBlocks (model_digraph_edges bedges mEq mVar) endo) =
      endo.toFinset ∧
    List.Pairwise (fun a b => Disjoint a b)
      (sccBlocks (model_digraph_edges bedges mEq mVar) endo) ∧
    ((sccBlocks (model_digraph_edges bedges mEq mVar) endo).map
      Finset.card).sum = neq ∧
    endo.toFinset.card = neq := by
  obtain ⟨hcov, hdisj, hsum⟩ :=
    sccBlocks_spec (model_digraph_edges bedges mEq mVar) endo
  have hcard : endo.toFinset.card = neq := by
    have himg : endo.toFinset = (Finset.range neq).image mEq := by
      apply Finset.Subset.antisymm
      · intro v hv
        have := hVar v (List.mem_toFinset.mp hv)
        rw [Finset.mem_image]
        exact ⟨mVar v, Finset.mem_range.mpr this.1, this.2⟩
      · intro v hv
        rw [Finset.mem_image] at hv
        obtain ⟨i, hi, rfl⟩ := hv
        exact List.mem_toFinset.mpr (hEq i (Finset.mem_range.mp hi)).1
    rw [himg, Finset.card_image_of_injOn, Finset.card_range]
    intro i hi j hj hij
    have h1 := (hEq i (Finset.mem_range.mp hi)).2
    have h2 := (hEq j (Finset.mem_range.mp hj)).2
    rw [← h1, ← h2, hij]
  exact ⟨hcov, hdisj, by rw [hsum, hcard], hcard⟩

/-- C7 witness model: `x+y=a`, `x-y=b` with endogenous `{x, y}` (scenario S1):
one block of size 2. -/
def c7_eqnsA : List EqnAnalyzed :=
  [EqnAnalyzed.mk "x+y=a" "x+y=a"
    [("x", "x"), ("y", "y"), ("a", "a")]
    [("x", ("x", 0)), ("y", ("y", 0)), ("a", ("a", 0))],
   EqnAnalyzed.mk "x-y=b" "x-y=b"
    [("x", "x"), ("y", "y"), ("b", "b")]
    [("x", ("x", 0)), ("y", ("y", 0)), ("b", ("b", 0))]]

def c7_endo : List String := ["x", "y"]

def c7_mEq : Nat → String := fun i => if i = 0 then "x" else "y"

def c7_mVar : String → Nat := fun v => if v = "x" then 0 else 1

theorem c7_witness :
    (analyze_eqns ["x+y=a", "x-y=b"]).map (fun r => r.1) = some c7_eqnsA ∧
    bigraph_edges c7_eqnsA c7_endo =
      [(0, "x"), (0, "y"), (1, "x"), (1, "y")] ∧
    coveredBy (sccBlocks
        (model_digraph_edges (bigraph_edges c7_eqnsA c7_endo) c7_mEq c7_mVar)
        c7_endo) = c7_endo.toFinset ∧
    List.Pairwise (fun a b => Disjoint a b)
      (sccBlocks
        (model_digraph_edges (bigraph_edges c7_eqnsA c7_endo) c7_mEq c7_mVar)
        c7_endo) ∧
    ((sccBlocks
        (model_digraph_edges (bigraph_edges c7_eqnsA c7_endo) c7_mEq c7_mVar)
        c7_endo).map Finset.card).sum = 2 ∧
    c7_endo.toFinset.card = 2 := by
  have hEq : ∀ i, i < 2 → c7_mEq i ∈ c7_endo ∧ c7_mVar (c7_mEq i) = i := by
    intro i hi
    interval_cases i <;> exact (by decide)
  have hVar : ∀ v ∈ c7_endo, c7_mVar v < 2 ∧ c7_mEq (c7_mVar v) = v := by
    decide
  have t := c7_blocks_partition_endo c7_endo 2
    (bigraph_edges c7_eqnsA c7_endo) c7_mEq c7_mVar hEq hVar
  exact ⟨rfl, rfl, t.1, t.2.1, t.2.2.1, t.2.2.2⟩

/-! ### C6: the `root_tolerance` setter -/

/-- A Python float under the IEEE-754 special values the setter can meet. -/
inductive PyFloat where
  | finite (q : ℚ)
  | inf
  | ninf
  | nan
deriving DecidableEq

/-- A value passed to the setter: a float or anything of another type. -/
inductive PyVal where
  | float (f : PyFloat)
  | nonfloat
deriving DecidableEq

/-- IEEE-754 evaluation of `value <= 0`: `False` for NaN and `+inf`, `True`
for `-inf`, the rational comparison otherwise. -/
def pyLe0 : PyFloat → Bool
  | .finite q => decide (q ≤ 0)
  | .inf => false
  | .ninf => true
  | .nan => false

/-- The `root_tolerance` setter: raise unless `type(value) == float`, raise
if `value <= 0`, else store.  Returns the stored tolerance after the call and
whether the call succeeded (an exception leaves the stored value unchanged). -/
def set_root_tolerance (cur : PyFloat) (v : PyVal) : PyFloat × Bool :=
  match v with
  | .nonfloat => (cur, false)
  | .float f => if pyLe0 f then (cur, false) else (f, true)

/-- C6 counterexample: the setter accepts `+inf` and NaN (for which
`value <= 0` is IEEE-false), storing them as the tolerance, although the claim
requires it to fail on every non-finite value. -/
theorem c6_counterexample :
    set_root_tolerance (PyFloat.finite (1 / 10 ^ 7)) (PyVal.float PyFloat.inf) =
      (PyFloat.inf, true) ∧
    set_root_tolerance (PyFloat.finite (1 / 10 ^ 7)) (PyVal.float PyFloat.nan) =
      (PyFloat.nan, true) := by
  refine ⟨by decide, by decide⟩

/-- C6 (amended): setting `root_tolerance` succeeds exactly when the value is
a float for which `value <= 0` is IEEE-false — a positive finite double,
`+inf`, or NaN; it fails (leaving the stored tolerance unchanged) for
non-floats, non-positive finite values, and `-inf`; on success the given
value itself is stored. -/
theorem c6_set_root_tolerance_iff (cur : PyFloat) (v : PyVal) :
    ((set_root_tolerance cur v).2 = true ↔
      (∃ q : ℚ, v = PyVal.float (PyFloat.finite q) ∧ 0 < q) ∨
        v = PyVal.float PyFloat.inf ∨ v = PyVal.float PyFloat.nan) ∧
    ((set_root_tolerance cur v).2 = false → (set_root_tolerance cur v).1 = cur) ∧
    ((set_root_tolerance cur v).2 = true →
      v = PyVal.float (set_root_tolerance cur v).1) := by
  cases v with
  | nonfloat => simp [set_root_tolerance]
  | float f =>
    cases f with
    | finite q =>
      by_cases hq : q ≤ 0
      · simp [set_root_tolerance, pyLe0, hq]
      · simp [set_root_tolerance, pyLe0, hq]
        linarith
    | inf => simp [set_root_tolerance, pyLe0]
    | ninf => simp [set_root_tolerance, pyLe0]
    | nan => simp [set_root_tolerance, pyLe0]

theorem c6_witness :
    (set_root_tolerance (PyFloat.finite 1) PyVal.nonfloat).2 = false ∧
    (set_root_tolerance (PyFloat.finite 1) PyVal.nonfloat).1 =
      PyFloat.finite 1 :=
  ⟨by decide,
    (c6_set_root_tolerance_iff (PyFloat.finite 1) PyVal.nonfloat).2.1
      (by decide)⟩

end ModelSolver
